import Mathlib

/-!
Formal model of the qcrawl crawling framework core, shallowly embedded from
the Python source (`src/qcrawl`), together with theorems settling the frozen
claims about the scheduler, the in-memory priority queue, the downloader
middleware chain, request fingerprinting, and URL normalization.
-/

set_option maxRecDepth 4000

namespace QCrawl

/-- A byte, kept as a `Nat` (always `< 256` by construction). -/
abbrev Byte := Nat

/-- A byte string. -/
abbrev Bytes := List Nat

/-! ## Request (`src/qcrawl/core/request.py`)

`Request` is a dataclass with fields `url, meta, headers, priority, method, body`.
`meta` values are opaque to the core, so they are modelled as strings.
The URL-normalizing constructor `__post_init__` is modelled later, once
`normalize_url` is available. -/

structure Request where
  url : String
  meta : List (String × String) := []
  headers : List (String × String) := []
  priority : Int := 0
  method : String := "GET"
  body : Option Bytes := none
  deriving Repr, DecidableEq

/-! ## MemoryPriorityQueue (`src/qcrawl/core/queues/memory.py`)

Items are stored as tuples `(priority, counter, request)` inside an
`asyncio.PriorityQueue`, which is a binary heap ordered by tuple comparison;
since the monotonically increasing `counter` is unique, the heap minimum is
the lexicographic minimum of `(priority, counter)` and the `request`
component never participates in the comparison.  The model keeps the entries
as a list plus the counter, and `get` extracts the lexicographic minimum. -/

structure MemQueue where
  entries : List (Int × Nat × Request) := []
  counter : Nat := 0
  maxsize : Nat := 0
  closed : Bool := false
  deriving Repr, DecidableEq

/-- Ordering used by the `asyncio.PriorityQueue` heap on the stored tuples:
lexicographic on `(priority, counter)` (the counter is unique, so the
`Request` component is never compared). -/
def entryLE (a b : Int × Nat × Request) : Bool :=
  a.1 < b.1 || (a.1 == b.1 && a.2.1 ≤ b.2.1)

/-- Select the heap minimum among the queued entries. -/
def heapMin (e : Int × Nat × Request) (rest : List (Int × Nat × Request)) :
    Int × Nat × Request :=
  rest.foldl (fun best x => if entryLE best x then best else x) e

/-- Outcome of `MemoryPriorityQueue.put`, following asyncio queue semantics:
a closed queue ignores the call (`noop`); `await self._pq.put(...)` on a
bounded, full queue suspends until space is available (`awaitSpace`); a
hypothetical `put_nowait` on a full queue would instead raise
`asyncio.QueueFull` (`raiseQueueFull`); otherwise the entry
`(priority, counter, request)` is appended and the counter advanced. -/
inductive PutOutcome where
  | noop
  | enq (q : MemQueue)
  | awaitSpace
  | raiseQueueFull
  deriving Repr, DecidableEq

/-- `MemoryPriorityQueue.put`: no-op when closed, otherwise
`await self._pq.put((priority, next(self._counter), request))`, which
suspends while a bounded queue is full. -/
def memPut (q : MemQueue) (request : Request) (priority : Int) : PutOutcome :=
  if q.closed then .noop
  else if 0 < q.maxsize ∧ q.maxsize ≤ q.entries.length then .awaitSpace
  else .enq { q with entries := q.entries ++ [(priority, q.counter, request)],
                     counter := q.counter + 1 }

/-- `MemoryPriorityQueue.get`: raises CancelledError when closed and empty,
otherwise removes and returns the heap minimum.  `none` models both the
CancelledError shutdown path and blocking on an open empty queue. -/
def memGet (q : MemQueue) : Option (Request × MemQueue) :=
  match q.entries with
  | [] => none
  | e :: rest =>
    let m := heapMin e rest
    some (m.2.2, { q with entries := (e :: rest).erase m })

/-- Drain a queue by repeated `get`, returning the requests in delivery
order (used for concrete ordering scenarios). -/
def memDrain : Nat → MemQueue → List Request
  | 0, _ => []
  | fuel + 1, q =>
    match memGet q with
    | none => []
    | some (r, q') => r :: memDrain fuel q'

/-- Enqueue a list of `(request, priority)` pairs in order, ignoring
blocked/noop outcomes (used for concrete scenarios on unbounded queues). -/
def memPutAll (q : MemQueue) : List (Request × Int) → MemQueue
  | [] => q
  | (r, p) :: rest =>
    match memPut q r p with
    | .enq q' => memPutAll q' rest
    | _ => memPutAll q rest

/-! ## Scheduler (`src/qcrawl/core/scheduler.py`)

The scheduler wraps an abstract `RequestQueue` backend and an injected
fingerprinter.  The model keeps the scheduler state explicit and threads an
event trace through each operation.  The backend's `put` is abstracted by a
`PutBehavior` (it either returns normally or raises `asyncio.QueueFull`,
which is the only exception `add` handles specially). -/

/-- Behavior of the abstract queue backend's `put` as observed by
`Scheduler.add`: it either returns normally or raises `asyncio.QueueFull`. -/
inductive PutBehavior where
  | ok
  | queueFull
  deriving Repr, DecidableEq

/-- Observable events produced by scheduler operations, in emission order:
direct delivery to a waiter (`fut.set_result`), the `request_scheduled`
signal, enqueueing into the backend, and the QueueFull drop. -/
inductive SchedEvent where
  | delivered (r : Request)
  | scheduled (r : Request)
  | enqueued (r : Request)
  | droppedFull (r : Request)
  deriving Repr, DecidableEq

/-- Scheduler state (`Scheduler.__slots__`): the `seen` fingerprint set, the
pending-work counter, the `_finished` event, the `_closed` flag, the FIFO of
waiter futures (each flagged with whether it is already done/cancelled), and
the backend queue contents. -/
structure SchedState where
  seen : List Bytes := []
  pending : Int := 0
  finishedSet : Bool := true
  closed : Bool := false
  waiters : List Bool := []
  queued : List Request := []
  deriving Repr, DecidableEq

/-- Initial scheduler state (`__init__`: empty `seen`, `pending = 0`,
`_finished.set()`). -/
def SchedState.init : SchedState := {}

/-- The direct-delivery loop of `Scheduler.add`: pop waiters from the front
until a non-done future is found (delivered) or none remain.  Returns
whether delivery happened and the remaining waiter deque. -/
def deliverLoop : List Bool → Bool × List Bool
  | [] => (false, [])
  | done :: rest => if done then deliverLoop rest else (true, rest)

/-- `Scheduler.add`, parameterized by the injected fingerprinter `fp` and the
backend `put` behavior `pb`.  Returns the new state and the emitted events. -/
def schedAdd (fp : Request → Bytes) (st : SchedState) (r : Request)
    (pb : PutBehavior) : SchedState × List SchedEvent :=
  if st.closed then (st, [])
  else
    let f := fp r
    if f ∈ st.seen then (st, [])
    else
      let st1 : SchedState :=
        { st with seen := f :: st.seen,
                  finishedSet := if st.pending = 0 then false else st.finishedSet,
                  pending := st.pending + 1 }
      let d := deliverLoop st1.waiters
      let st2 := { st1 with waiters := d.2 }
      if d.1 then (st2, [.delivered r, .scheduled r])
      else
        match pb with
        | .ok => ({ st2 with queued := st2.queued ++ [r] },
                  [.scheduled r, .enqueued r])
        | .queueFull =>
          let p := st2.pending - 1
          ({ st2 with pending := p,
                      finishedSet := if p = 0 then true else st2.finishedSet,
                      seen := st2.seen.erase f },
           [.scheduled r, .droppedFull r])

/-- `Scheduler.get`: raise CancelledError when closed with an empty backend
(state unchanged); hand out a queued request when the backend is non-empty;
otherwise register a new live waiter future. -/
def schedGet (st : SchedState) : SchedState :=
  if st.closed ∧ st.queued = [] then st
  else
    match st.queued with
    | _ :: rest => { st with queued := rest }
    | [] => { st with waiters := st.waiters ++ [false] }

/-- `Scheduler.task_done`: raises `ValueError` when `pending == 0` (state
unchanged), otherwise decrements `pending` and sets `_finished` when it
reaches zero. -/
def schedTaskDone (st : SchedState) : Except String SchedState :=
  if st.pending = 0 then .error "task_done() called too many times"
  else
    let p := st.pending - 1
    .ok { st with pending := p,
                  finishedSet := if p = 0 then true else st.finishedSet }

/-- `Scheduler.close`: mark closed and cancel every waiter (the backend
queue is closed but keeps its items). -/
def schedClose (st : SchedState) : SchedState :=
  if st.closed then st else { st with closed := true, waiters := [] }

/-- One scheduler operation; `add` carries the backend `put` behavior
observed during that call. -/
inductive SchedOp where
  | add (r : Request) (pb : PutBehavior)
  | get
  | taskDone
  | close
  deriving Repr, DecidableEq

/-- Run one operation.  A `task_done` overflow raises, leaving the state
unchanged (the engine's worker catches and logs it). -/
def schedStep (fp : Request → Bytes) (st : SchedState) : SchedOp → SchedState
  | .add r pb => (schedAdd fp st r pb).1
  | .get => schedGet st
  | .taskDone => match schedTaskDone st with
    | .ok st' => st'
    | .error _ => st
  | .close => schedClose st

/-- Run a sequence of scheduler operations from a state. -/
def schedRun (fp : Request → Bytes) (st : SchedState) : List SchedOp → SchedState
  | [] => st
  | op :: rest => schedRun fp (schedStep fp st op) rest

/-- The scheduler's accounting invariant: `pending ≥ 0` and
`pending == 0 ⇒ _finished.set`. -/
def SchedInv (st : SchedState) : Prop :=
  0 ≤ st.pending ∧ (st.pending = 0 → st.finishedSet = true)

instance (st : SchedState) : Decidable (SchedInv st) := by
  unfold SchedInv; infer_instance

/-- Each scheduler operation preserves the accounting invariant. -/
theorem schedStep_inv (fp : Request → Bytes) (st : SchedState) (op : SchedOp)
    (h : SchedInv st) : SchedInv (schedStep fp st op) := by
  obtain ⟨h0, h1⟩ := h
  cases op with
  | add r pb =>
    simp only [schedStep, schedAdd]
    split
    · exact ⟨h0, h1⟩
    split
    · exact ⟨h0, h1⟩
    split
    · refine ⟨by dsimp only; omega, ?_⟩
      dsimp only
      intro hp
      exact absurd hp (by omega)
    cases pb with
    | ok =>
      refine ⟨by dsimp only; omega, ?_⟩
      dsimp only
      intro hp
      exact absurd hp (by omega)
    | queueFull =>
      refine ⟨by dsimp only; omega, ?_⟩
      dsimp only
      intro hp
      simp [hp]
  | get =>
    simp only [schedStep, schedGet]
    split
    · exact ⟨h0, h1⟩
    split <;> exact ⟨h0, h1⟩
  | taskDone =>
    by_cases hp : st.pending = 0
    · simp only [schedStep, schedTaskDone, if_pos hp]
      exact ⟨h0, h1⟩
    · simp only [schedStep, schedTaskDone, if_neg hp]
      refine ⟨by dsimp only; omega, ?_⟩
      dsimp only
      intro hz
      simp [hz]
  | close =>
    simp only [schedStep, schedClose]
    split <;> exact ⟨h0, h1⟩

/-- The invariant holds along any run from the initial state. -/
theorem schedRun_inv (fp : Request → Bytes) (ops : List SchedOp) (st : SchedState)
    (h : SchedInv st) : SchedInv (schedRun fp st ops) := by
  induction ops generalizing st with
  | nil => exact h
  | cons op rest ih => exact ih _ (schedStep_inv fp st op h)

/-- C6: every sequence of scheduler operations (add, get, task_done, close)
preserves `pending ≥ 0` and `pending == 0 ⇒ finished is set`; and
`task_done` with `pending == 0` raises `ValueError` ("called too many
times") and leaves the scheduler state unchanged. -/
theorem C6_scheduler_invariant_and_taskDone_overflow :
    (∀ (fp : Request → Bytes) (ops : List SchedOp),
        SchedInv (schedRun fp SchedState.init ops)) ∧
    (∀ (fp : Request → Bytes) (st : SchedState), st.pending = 0 →
        schedTaskDone st = .error "task_done() called too many times" ∧
        schedStep fp st .taskDone = st) := by
  constructor
  · intro fp ops
    exact schedRun_inv fp ops SchedState.init ⟨by decide, fun _ => rfl⟩
  · intro fp st hp
    constructor
    · simp [schedTaskDone, hp]
    · simp [schedStep, schedTaskDone, hp]

/-- Witness for C6 at concrete inputs: a concrete operation sequence
satisfies the invariant, and `task_done` on a concrete zero-pending state
errors without changing the state. -/
theorem C6_witness :
    SchedInv (schedRun (fun _ => []) SchedState.init
      [.add { url := "http://a/x" } .ok, .get, .taskDone, .close]) ∧
    (schedTaskDone SchedState.init = .error "task_done() called too many times" ∧
     schedStep (fun _ => []) SchedState.init .taskDone = SchedState.init) :=
  ⟨C6_scheduler_invariant_and_taskDone_overflow.1 (fun _ => []) _,
   C6_scheduler_invariant_and_taskDone_overflow.2 (fun _ => []) SchedState.init rfl⟩

/-- C10: `Scheduler.add` emits `request_scheduled` before attempting
`queue.put`: for a non-duplicate request on an open scheduler with no live
waiter, the successful path emits `scheduled` then `enqueued`, and on the
QueueFull path the trace is `scheduled` then `droppedFull` — the signal has
already been emitted when the drop happens, is not retracted, and the
request is not enqueued. -/
theorem C10_request_scheduled_before_put (fp : Request → Bytes)
    (st : SchedState) (r : Request)
    (hc : st.closed = false) (hs : fp r ∉ st.seen)
    (hw : (deliverLoop st.waiters).1 = false) :
    (schedAdd fp st r .ok).2 = [.scheduled r, .enqueued r] ∧
    (schedAdd fp st r .queueFull).2 = [.scheduled r, .droppedFull r] ∧
    SchedEvent.scheduled r ∈ (schedAdd fp st r .queueFull).2 ∧
    (schedAdd fp st r .queueFull).1.queued = st.queued := by
  refine ⟨?_, ?_, ?_, ?_⟩ <;> simp [schedAdd, hc, hs, hw]

/-- Witness for C10: a concrete open scheduler state with an unseen request
and no waiters. -/
theorem C10_witness :
    (schedAdd (fun r => r.url.toUTF8.toList.map (fun b => b.toNat))
        SchedState.init { url := "http://a/x" } .ok).2 =
      [.scheduled { url := "http://a/x" }, .enqueued { url := "http://a/x" }] ∧
    (schedAdd (fun r => r.url.toUTF8.toList.map (fun b => b.toNat))
        SchedState.init { url := "http://a/x" } .queueFull).2 =
      [.scheduled { url := "http://a/x" }, .droppedFull { url := "http://a/x" }] ∧
    SchedEvent.scheduled { url := "http://a/x" } ∈
      (schedAdd (fun r => r.url.toUTF8.toList.map (fun b => b.toNat))
        SchedState.init { url := "http://a/x" } .queueFull).2 ∧
    (schedAdd (fun r => r.url.toUTF8.toList.map (fun b => b.toNat))
        SchedState.init { url := "http://a/x" } .queueFull).1.queued =
      SchedState.init.queued :=
  C10_request_scheduled_before_put _ SchedState.init { url := "http://a/x" }
    rfl (by decide) rfl

/-! ### Ordering facts about the in-memory queue -/

theorem entryLE_refl (a : Int × Nat × Request) : entryLE a a = true := by
  simp [entryLE]

theorem entryLE_total (a b : Int × Nat × Request) :
    entryLE a b = true ∨ entryLE b a = true := by
  simp only [entryLE, Bool.or_eq_true, Bool.and_eq_true, decide_eq_true_eq,
    beq_iff_eq]
  omega

theorem entryLE_trans {a b c : Int × Nat × Request}
    (h1 : entryLE a b = true) (h2 : entryLE b c = true) : entryLE a c = true := by
  simp only [entryLE, Bool.or_eq_true, Bool.and_eq_true, decide_eq_true_eq,
    beq_iff_eq] at h1 h2 ⊢
  omega

theorem heapMin_cons (e x : Int × Nat × Request) (rest : List (Int × Nat × Request)) :
    heapMin e (x :: rest) = heapMin (if entryLE e x then e else x) rest := rfl

theorem heapMin_mem (e : Int × Nat × Request) (rest : List (Int × Nat × Request)) :
    heapMin e rest ∈ e :: rest := by
  induction rest generalizing e with
  | nil => simp [heapMin]
  | cons x xs ih =>
    rw [heapMin_cons]
    rcases List.mem_cons.mp (ih (if entryLE e x then e else x)) with h | h
    · rw [h]
      split
      · exact List.mem_cons_self _ _
      · exact List.mem_cons_of_mem _ (List.mem_cons_self _ _)
    · exact List.mem_cons_of_mem _ (List.mem_cons_of_mem _ h)

theorem heapMin_le (e : Int × Nat × Request) (rest : List (Int × Nat × Request)) :
    ∀ x ∈ e :: rest, entryLE (heapMin e rest) x = true := by
  induction rest generalizing e with
  | nil =>
    intro x hx
    rcases List.mem_cons.mp hx with h | h
    · rw [h]; exact entryLE_refl _
    · cases h
  | cons y ys ih =>
    intro x hx
    rw [heapMin_cons]
    by_cases hey : entryLE e y = true
    · rw [if_pos hey]
      rcases List.mem_cons.mp hx with h | h
      · rw [h]; exact ih e _ (List.mem_cons_self _ _)
      rcases List.mem_cons.mp h with h' | h'
      · rw [h']
        exact entryLE_trans (ih e _ (List.mem_cons_self _ _)) hey
      · exact ih e _ (List.mem_cons_of_mem _ h')
    · rw [if_neg hey]
      have hye : entryLE y e = true := (entryLE_total e y).resolve_left hey
      rcases List.mem_cons.mp hx with h | h
      · rw [h]
        exact entryLE_trans (ih y _ (List.mem_cons_self _ _)) hye
      rcases List.mem_cons.mp h with h' | h'
      · rw [h']; exact ih y _ (List.mem_cons_self _ _)
      · exact ih y _ (List.mem_cons_of_mem _ h')

/-- Requests used in the concrete S2 scenario. -/
def u1 : Request := { url := "http://example.com/1" }
def u2 : Request := { url := "http://example.com/2" }
def u3 : Request := { url := "http://example.com/3" }
def u4 : Request := { url := "http://example.com/4" }
def u5 : Request := { url := "http://example.com/5" }

/-- C4: `MemoryPriorityQueue.get` returns an entry minimal in the
lexicographic `(priority, counter)` order — smallest priority first, FIFO
(smallest counter) within a priority — and concretely, after putting five
requests with priorities [5, 1, 1, 5, 3] and URLs U1..U5 in that order,
successive gets return U2, U3, U5, U1, U4. -/
theorem C4_priority_fifo_order :
    (∀ (q : MemQueue) (e : Int × Nat × Request) (rest : List (Int × Nat × Request)),
      q.entries = e :: rest →
        memGet q = some ((heapMin e rest).2.2,
          { q with entries := q.entries.erase (heapMin e rest) }) ∧
        heapMin e rest ∈ q.entries ∧
        ∀ x ∈ q.entries, entryLE (heapMin e rest) x = true) ∧
    memDrain 5 (memPutAll {} [(u1, 5), (u2, 1), (u3, 1), (u4, 5), (u5, 3)]) =
      [u2, u3, u5, u1, u4] := by
  constructor
  · intro q e rest hq
    refine ⟨?_, ?_, ?_⟩
    · simp [memGet, hq]
    · rw [hq]; exact heapMin_mem e rest
    · rw [hq]; exact heapMin_le e rest
  · decide

/-- Witness for C4: the general minimality statement applied to a concrete
two-element queue. -/
theorem C4_witness :
    memGet { entries := [(5, 0, u1), (1, 1, u2)] } =
      some (u2, { entries := [(5, 0, u1)], counter := 0, maxsize := 0,
                  closed := false }) ∧
    memDrain 5 (memPutAll {} [(u1, 5), (u2, 1), (u3, 1), (u4, 5), (u5, 3)]) =
      [u2, u3, u5, u1, u4] := by
  have h := C4_priority_fifo_order
  have h1 := h.1 { entries := [(5, 0, u1), (1, 1, u2)] } (5, 0, u1) [(1, 1, u2)] rfl
  refine ⟨?_, h.2⟩
  have : heapMin (5, 0, u1) [(1, 1, u2)] = (1, 1, u2) := by decide
  rw [h1.1, this]
  decide

/-- C5 counterexample: on a bounded (`maxsize = 1`), open, full
`MemoryPriorityQueue`, `put` does not raise `asyncio.QueueFull` — it is
`await self._pq.put(...)`, which suspends until space is available. -/
theorem C5_counterexample :
    memPut { entries := [(0, 0, u1)], counter := 1, maxsize := 1 } u2 0 ≠
      PutOutcome.raiseQueueFull ∧
    memPut { entries := [(0, 0, u1)], counter := 1, maxsize := 1 } u2 0 =
      PutOutcome.awaitSpace := by
  decide

/-- C5 (amended): for a bounded open full `MemoryPriorityQueue`,
`put(request, priority)` awaits until space is available rather than
raising QueueFull; and on a closed queue `put` is a no-op that leaves the
queue contents unchanged. -/
theorem C5_put_full_awaits_closed_noop (q : MemQueue) (r : Request) (p : Int) :
    (q.closed = true → memPut q r p = .noop) ∧
    (q.closed = false → 0 < q.maxsize → q.maxsize ≤ q.entries.length →
      memPut q r p = .awaitSpace) := by
  constructor
  · intro hc; simp [memPut, hc]
  · intro hc hm hf
    simp only [memPut, hc, Bool.false_eq_true, if_false]
    rw [if_pos ⟨hm, hf⟩]

/-- Witness for C5: a concrete closed queue and a concrete full open
queue. -/
theorem C5_witness :
    memPut { closed := true, entries := [(0, 0, u1)] } u2 0 = .noop ∧
    memPut { entries := [(0, 0, u1)], counter := 1, maxsize := 1 } u2 0 =
      .awaitSpace :=
  ⟨(C5_put_full_awaits_closed_noop { closed := true, entries := [(0, 0, u1)] }
      u2 0).1 rfl,
   (C5_put_full_awaits_closed_noop
      { entries := [(0, 0, u1)], counter := 1, maxsize := 1 } u2 0).2 rfl
      (by decide) (by decide)⟩

/-! ## Downloader middleware chain (`src/qcrawl/middleware/base.py`,
`src/qcrawl/core/engine.py`)

`Action` and `MiddlewareResult` are the tagged result type returned by every
downloader middleware hook.  `CrawlEngine._run_middleware_chain` walks a
chain, calling each middleware's hook with the current payload (the hook is
called with the payload argument exactly when the current payload is not
`None`), and `CrawlEngine._process_request` drives the request phase over
`self.middlewares` and the response phase over `self._reversed_mws`
(`list(reversed(self.middlewares))`); `_handle_exception` runs the
exception chain over `self._reversed_mws` as well. -/

structure Page where
  url : String
  status : Nat := 200
  deriving Repr, DecidableEq

/-- `Action` enum from `qcrawl.middleware.base`. -/
inductive Action where
  | cont
  | keep
  | retry
  | drop
  deriving Repr, DecidableEq

/-- Payload attached to a `MiddlewareResult` (a `Page` or a `Request`). -/
inductive Payload where
  | page (p : Page)
  | req (r : Request)
  deriving Repr, DecidableEq

/-- `MiddlewareResult` dataclass: an action plus an optional payload. -/
structure MwResult where
  action : Action
  payload : Option Payload := none
  deriving Repr, DecidableEq

/-- A downloader middleware: an id (its registration position, used only to
record call traces) and its three phase hooks.  Each hook receives the
request and the engine's current payload (`none` when the engine calls it
without a payload argument). -/
structure MW where
  id : Nat
  onRequest : Request → Option Payload → MwResult
  onResponse : Request → Option Payload → MwResult
  onException : Request → Option Payload → MwResult

/-- Chain phase selector (`method_name` in `_run_middleware_chain`). -/
inductive Phase where
  | request
  | response
  | exception
  deriving Repr, DecidableEq

def hookOf (ph : Phase) (mw : MW) : Request → Option Payload → MwResult :=
  match ph with
  | .request => mw.onRequest
  | .response => mw.onResponse
  | .exception => mw.onException

/-- `CrawlEngine._run_middleware_chain`: walk the chain in order; return
immediately on RETRY or DROP; on KEEP or CONTINUE, replace the current
payload when the result carries one and continue with the next middleware;
after the loop, return KEEP of the current payload when it is a `Page`,
else CONTINUE.  The second component is the trace of middleware ids
actually called. -/
def runChain (ph : Phase) (r : Request) (chain : List MW)
    (payload : Option Payload) : MwResult × List Nat :=
  match chain with
  | [] =>
    match payload with
    | some (.page p) => (⟨.keep, some (.page p)⟩, [])
    | _ => (⟨.cont, none⟩, [])
  | mw :: rest =>
    let result := hookOf ph mw r payload
    if result.action = .retry ∨ result.action = .drop then (result, [mw.id])
    else
      let np := if result.payload = none then payload else result.payload
      let rec' := runChain ph r rest np
      (rec'.1, mw.id :: rec'.2)

/-- Result of `CrawlEngine._process_request`: what it returns, the ids
called during the request phase, whether the download was reached, and the
ids called during the response phase. -/
structure ProcResult where
  outcome : Option Payload
  reqTrace : List Nat
  fetchHappened : Bool
  respTrace : List Nat
  deriving Repr, DecidableEq

/-- `CrawlEngine._process_request`: run the request chain over the
middlewares in registration order; on KEEP return its payload directly
(no download, no response phase); on RETRY/DROP return `None`; otherwise
fetch and run the response chain over the reversed middleware list. -/
def processRequest (mws : List MW) (fetch : Request → Page) (r : Request) :
    ProcResult :=
  let res1 := runChain .request r mws none
  if res1.1.action = .keep then ⟨res1.1.payload, res1.2, false, []⟩
  else if res1.1.action = .retry ∨ res1.1.action = .drop then
    ⟨none, res1.2, false, []⟩
  else
    let page := fetch r
    let res2 := runChain .response r mws.reverse (some (.page page))
    if res2.1.action = .keep then ⟨res2.1.payload, res1.2, true, res2.2⟩
    else if res2.1.action = .retry ∨ res2.1.action = .drop then
      ⟨none, res1.2, true, res2.2⟩
    else ⟨some (.page page), res1.2, true, res2.2⟩

theorem runChain_nil_trace (ph : Phase) (r : Request) (payload : Option Payload) :
    (runChain ph r [] payload).2 = [] := by
  cases payload with
  | none => rfl
  | some pl => cases pl <;> rfl

/-- The trace of called middlewares is always an in-order prefix of the
chain it was given. -/
theorem runChain_trace_prefixes (ph : Phase) (r : Request) (chain : List MW)
    (payload : Option Payload) :
    ∃ t, (runChain ph r chain payload).2 ++ t = chain.map MW.id := by
  induction chain generalizing payload with
  | nil => exact ⟨[], by rw [runChain_nil_trace]; rfl⟩
  | cons mw rest ih =>
    by_cases h : (hookOf ph mw r payload).action = .retry ∨
        (hookOf ph mw r payload).action = .drop
    · refine ⟨rest.map MW.id, ?_⟩
      simp [runChain, h]
    · obtain ⟨t, ht⟩ := ih (if (hookOf ph mw r payload).payload = none then payload
        else (hookOf ph mw r payload).payload)
      refine ⟨t, ?_⟩
      simp only [runChain, if_neg h, List.map_cons, List.cons_append,
        List.cons.injEq, true_and]
      exact ht

/-- C1 (amended): the request chain runs in registration order and the
response and exception chains over the reversed list; the chain
short-circuits immediately only on RETRY or DROP; a KEEP (or any result
carrying a payload) does not short-circuit — the payload replaces the
current payload and the chain continues with the next middleware; and a
KEEP outcome of the request phase makes `_process_request` return that
payload immediately, skipping the download and the entire response phase
(it is not entered at all). -/
theorem C1_chain_order_shortcircuit :
    (∀ (ph : Phase) (r : Request) (chain : List MW) (payload : Option Payload),
      ∃ t, (runChain ph r chain payload).2 ++ t = chain.map MW.id) ∧
    (∀ (ph : Phase) (r : Request) (mw : MW) (chain : List MW)
        (payload : Option Payload),
      (hookOf ph mw r payload).action = .retry ∨
        (hookOf ph mw r payload).action = .drop →
      runChain ph r (mw :: chain) payload = (hookOf ph mw r payload, [mw.id])) ∧
    (∀ (ph : Phase) (r : Request) (mw : MW) (chain : List MW)
        (payload : Option Payload),
      (hookOf ph mw r payload).action = .keep →
      runChain ph r (mw :: chain) payload =
        ((runChain ph r chain (if (hookOf ph mw r payload).payload = none
            then payload else (hookOf ph mw r payload).payload)).1,
         mw.id :: (runChain ph r chain (if (hookOf ph mw r payload).payload = none
            then payload else (hookOf ph mw r payload).payload)).2)) ∧
    (∀ (r : Request) (mws : List MW) (fetch : Request → Page),
      ∃ t, (processRequest mws fetch r).respTrace ++ t = mws.reverse.map MW.id) ∧
    (∀ (r : Request) (mws : List MW) (fetch : Request → Page),
      (runChain .request r mws none).1.action = .keep →
      processRequest mws fetch r =
        ⟨(runChain .request r mws none).1.payload,
         (runChain .request r mws none).2, false, []⟩) := by
  refine ⟨runChain_trace_prefixes, ?_, ?_, ?_, ?_⟩
  · intro ph r mw chain payload h
    simp [runChain, h]
  · intro ph r mw chain payload h
    have hnot : ¬ ((hookOf ph mw r payload).action = .retry ∨
        (hookOf ph mw r payload).action = .drop) := by
      rw [h]; rintro (hc | hc) <;> cases hc
    simp [runChain, hnot]
  · intro r mws fetch
    by_cases h1 : (runChain .request r mws none).1.action = .keep
    · refine ⟨mws.reverse.map MW.id, ?_⟩
      simp [processRequest, h1]
    · by_cases h2 : (runChain .request r mws none).1.action = .retry ∨
          (runChain .request r mws none).1.action = .drop
      · refine ⟨mws.reverse.map MW.id, ?_⟩
        simp [processRequest, h1, h2]
      · obtain ⟨t, ht⟩ := runChain_trace_prefixes .response r mws.reverse
          (some (.page (fetch r)))
        refine ⟨t, ?_⟩
        by_cases h3 : (runChain .response r mws.reverse
            (some (.page (fetch r)))).1.action = .keep
        · simpa [processRequest, h1, h2, h3] using ht
        · by_cases h4 : (runChain .response r mws.reverse
              (some (.page (fetch r)))).1.action = .retry ∨
              (runChain .response r mws.reverse
                (some (.page (fetch r)))).1.action = .drop
          · simpa [processRequest, h1, h2, h3, h4] using ht
          · simpa [processRequest, h1, h2, h3, h4] using ht
  · intro r mws fetch h
    simp [processRequest, h]

/-- The page returned by the first middleware of the C1 counterexample. -/
def pageP : Page := { url := "http://a/kept" }

/-- Middleware 1: returns `KEEP(pageP)` in the request phase. -/
def mwKeep : MW :=
  { id := 1,
    onRequest := fun _ _ => ⟨.keep, some (.page pageP)⟩,
    onResponse := fun _ _ => ⟨.cont, none⟩,
    onException := fun _ _ => ⟨.cont, none⟩ }

/-- Middleware 2: returns CONTINUE in every phase. -/
def mwPass : MW :=
  { id := 2,
    onRequest := fun _ _ => ⟨.cont, none⟩,
    onResponse := fun _ _ => ⟨.cont, none⟩,
    onException := fun _ _ => ⟨.cont, none⟩ }

/-- C1 counterexample: with middlewares [1, 2] where middleware 1 returns
`KEEP(response)` in the request phase, the engine still calls middleware 2's
`process_request` (trace [1, 2], not [1]: KEEP did not short-circuit), and
the response phase is never entered (trace [], not [1]: the KEEP payload is
returned directly instead of entering the response phase from middleware 1
onward). -/
theorem C1_counterexample :
    (processRequest [mwKeep, mwPass] (fun _ => { url := "http://f/" }) u1).reqTrace
        = [1, 2] ∧
    (processRequest [mwKeep, mwPass] (fun _ => { url := "http://f/" }) u1).reqTrace
        ≠ [1] ∧
    (processRequest [mwKeep, mwPass] (fun _ => { url := "http://f/" }) u1).respTrace
        = [] ∧
    (processRequest [mwKeep, mwPass] (fun _ => { url := "http://f/" }) u1).respTrace
        ≠ [1] := by
  decide

/-- Witness for C1: the short-circuit clause applied to a concrete chain
whose head middleware returns DROP, and the KEEP clause at the concrete
counterexample chain. -/
theorem C1_witness :
    runChain .request u1
        [{ id := 7, onRequest := fun _ _ => ⟨.drop, none⟩,
           onResponse := fun _ _ => ⟨.cont, none⟩,
           onException := fun _ _ => ⟨.cont, none⟩ }, mwPass] none =
      (⟨.drop, none⟩, [7]) ∧
    processRequest [mwKeep, mwPass] (fun _ => { url := "http://f/" }) u1 =
      ⟨some (.page pageP), [1, 2], false, []⟩ := by
  constructor
  · exact C1_chain_order_shortcircuit.2.1 .request u1 _ [mwPass] none (Or.inr rfl)
  · have h := C1_chain_order_shortcircuit.2.2.2.2 u1 [mwKeep, mwPass]
      (fun _ => { url := "http://f/" }) (by decide)
    rw [h]
    decide

/-! ## BLAKE2b (RFC 7693), as used by `hashlib.blake2b` in
`src/qcrawl/utils/fingerprint.py`

Unkeyed BLAKE2b with a configurable digest size, over 64-bit words modelled
as `Nat` reduced mod `2^64`. -/

/-- 2^64, the word modulus. -/
def W64 : Nat := 18446744073709551616

/-- BLAKE2b initialization vector (the SHA-512 IVs). -/
def blakeIV : List Nat :=
  [0x6a09e667f3bcc908, 0xbb67ae8584caa73b, 0x3c6ef372fe94f82b,
   0xa54ff53a5f1d36f1, 0x510e527fade682d1, 0x9b05688c2b3e6c1f,
   0x1f83d9abfb41bd6b, 0x5be0cd19137e2179]

/-- BLAKE2 message schedule SIGMA. -/
def blakeSigma : List (List Nat) :=
  [[0, 1, 2, 3, 4, 5, 6, 7, 8, 9, 10, 11, 12, 13, 14, 15],
   [14, 10, 4, 8, 9, 15, 13, 6, 1, 12, 0, 2, 11, 7, 5, 3],
   [11, 8, 12, 0, 5, 2, 15, 13, 10, 14, 3, 6, 7, 1, 9, 4],
   [7, 9, 3, 1, 13, 12, 11, 14, 2, 6, 5, 10, 4, 0, 15, 8],
   [9, 0, 5, 7, 2, 4, 10, 15, 14, 1, 11, 12, 6, 8, 3, 13],
   [2, 12, 6, 10, 0, 11, 8, 3, 4, 13, 7, 5, 15, 14, 1, 9],
   [12, 5, 1, 15, 14, 13, 4, 10, 0, 7, 6, 3, 9, 2, 8, 11],
   [13, 11, 7, 14, 12, 1, 3, 9, 5, 0, 15, 4, 8, 6, 2, 10],
   [6, 15, 14, 9, 11, 3, 0, 8, 12, 2, 13, 7, 1, 4, 10, 5],
   [10, 2, 8, 4, 7, 6, 1, 5, 15, 11, 9, 14, 3, 12, 13, 0]]

/-- Right-rotate a 64-bit word by `n` bits. -/
def rotr64 (x n : Nat) : Nat :=
  ((x >>> n) ||| (x <<< (64 - n))) % W64

/-- The BLAKE2b G mixing function acting on the 16-word work vector. -/
def gMix (v : List Nat) (a b c d x y : Nat) : List Nat :=
  let va := (v.getD a 0 + v.getD b 0 + x) % W64
  let vd := rotr64 ((v.getD d 0) ^^^ va) 32
  let vc := (v.getD c 0 + vd) % W64
  let vb := rotr64 ((v.getD b 0) ^^^ vc) 24
  let va2 := (va + vb + y) % W64
  let vd2 := rotr64 (vd ^^^ va2) 16
  let vc2 := (vc + vd2) % W64
  let vb2 := rotr64 (vb ^^^ vc2) 63
  ((((v.set a va2).set b vb2).set c vc2).set d vd2)

/-- One BLAKE2b round with message words `m` and sigma row `s`. -/
def blakeRound (m : List Nat) (v : List Nat) (s : List Nat) : List Nat :=
  let g := fun (v : List Nat) (a b c d i j : Nat) =>
    gMix v a b c d (m.getD (s.getD i 0) 0) (m.getD (s.getD j 0) 0)
  let v := g v 0 4 8 12 0 1
  let v := g v 1 5 9 13 2 3
  let v := g v 2 6 10 14 4 5
  let v := g v 3 7 11 15 6 7
  let v := g v 0 5 10 15 8 9
  let v := g v 1 6 11 12 10 11
  let v := g v 2 7 8 13 12 13
  let v := g v 3 4 9 14 14 15
  v

/-- The BLAKE2b compression function F (12 rounds). -/
def blakeCompress (h : List Nat) (m : List Nat) (t : Nat) (last : Bool) :
    List Nat :=
  let v0 := h ++ blakeIV
  let v1 := v0.set 12 ((v0.getD 12 0) ^^^ (t % W64))
  let v2 := v1.set 13 ((v1.getD 13 0) ^^^ (t / W64 % W64))
  let v3 := if last then v2.set 14 ((v2.getD 14 0) ^^^ (W64 - 1)) else v2
  let rounds := [0, 1, 2, 3, 4, 5, 6, 7, 8, 9, 0, 1].map
    (fun i => blakeSigma.getD i [])
  let vf := rounds.foldl (blakeRound m) v3
  (List.range 8).map (fun i => (h.getD i 0) ^^^ (vf.getD i 0) ^^^ (vf.getD (i + 8) 0))

/-- Little-endian word from (up to) 8 bytes. -/
def leWord (bs : List Nat) : Nat := bs.foldr (fun b acc => b + 256 * acc) 0

/-- The 16 little-endian message words of a 128-byte block. -/
def blockWords (b : List Nat) : List Nat :=
  (List.range 16).map (fun i => leWord ((b.drop (8 * i)).take 8))

/-- Split a message into 128-byte blocks, zero-padding the last one (the
fuel argument, instantiated with the message length, only bounds the
recursion). -/
def toBlocksGo : Nat → List Nat → List (List Nat)
  | _, [] => []
  | 0, _ :: _ => []
  | fuel + 1, x :: xs =>
    let b := (x :: xs).take 128
    (b ++ List.replicate (128 - b.length) 0) :: toBlocksGo fuel ((x :: xs).drop 128)

/-- Split a message into 128-byte blocks, zero-padding the last one. -/
def toBlocks (data : List Nat) : List (List Nat) := toBlocksGo data.length data

/-- Process the blocks of a message of total length `ll`. -/
def blakeGo (h : List Nat) (blocks : List (List Nat)) (done ll : Nat) :
    List Nat :=
  match blocks with
  | [] => h
  | [b] => blakeCompress h (blockWords b) ll true
  | b :: rest => blakeGo (blakeCompress h (blockWords b) (done + 128) false)
      rest (done + 128) ll

/-- The 8 little-endian bytes of a 64-bit word. -/
def wordBytes (w : Nat) : List Nat := (List.range 8).map (fun i => w / 256 ^ i % 256)

/-- Unkeyed BLAKE2b of `data` with digest size `nn` bytes
(`hashlib.blake2b(data, digest_size=nn).digest()`). -/
def blake2b (data : Bytes) (nn : Nat) : Bytes :=
  let h0 := blakeIV.set 0 ((blakeIV.getD 0 0) ^^^ (0x01010000 ^^^ nn))
  let ll := data.length
  let blocks := if ll = 0 then [List.replicate 128 0] else toBlocks data
  ((blakeGo h0 blocks 0 ll).map wordBytes).flatten.take nn

/-! ## URL model (`src/qcrawl/utils/url.py` with the `yarl.URL` library)

`normalize_url` delegates URL parsing to `yarl.URL` and path normalization
to `posixpath.normpath`.  The model covers the plain-ASCII,
percent-escape-free subset of URL syntax: a parser into the components
`yarl` exposes (`scheme`, `host` with userinfo stripped, explicit port plus
`yarl`'s default-port inference for http/https/ws/wss, decoded `path`,
`query_string`, fragment discarded), a faithful `posixpath.normpath`, and
the exact normalization pipeline of `normalize_url`.  `parseURL` returns
`none` where `yarl.URL` raises (invalid port) or the string leaves the
modelled subset. -/

/-- Split a character list at the first occurrence of `c`; the second
component is `none` when `c` does not occur. -/
def splitFirstChar (c : Char) : List Char → List Char × Option (List Char)
  | [] => ([], none)
  | x :: xs =>
    if x = c then ([], some xs)
    else
      let r := splitFirstChar c xs
      (x :: r.1, r.2)

/-- Split a character list on `'/'` (like `str.split("/")`): always returns
at least one (possibly empty) component. -/
def splitSlash : List Char → List (List Char)
  | [] => [[]]
  | x :: xs =>
    if x = '/' then [] :: splitSlash xs
    else
      match splitSlash xs with
      | s :: ss => (x :: s) :: ss
      | [] => [[x]]

/-- Join components with `'/'` (like `"/".join`). -/
def joinSlash : List (List Char) → List Char
  | [] => []
  | [a] => a
  | a :: rest => a ++ '/' :: joinSlash rest

/-- Decimal digits of `n`, most significant first (fuel-based so the kernel
can reduce it). -/
def natDigitsGo : Nat → Nat → List Char
  | 0, _ => []
  | f + 1, n =>
    if n < 10 then [Char.ofNat (48 + n)]
    else natDigitsGo f (n / 10) ++ [Char.ofNat (48 + n % 10)]

/-- Decimal representation of `n` (as `str(n)` in Python). -/
def natDigits (n : Nat) : List Char := natDigitsGo (n + 1) n

/-- Read a decimal digit string. -/
def digitsToNat (cs : List Char) : Nat :=
  cs.foldl (fun n c => n * 10 + (c.toNat - 48)) 0

/-- ASCII lowercase of one character (as `str.lower` acts on ASCII). -/
def lowerChar (c : Char) : Char :=
  if 65 ≤ c.toNat ∧ c.toNat ≤ 90 then Char.ofNat (c.toNat + 32) else c

/-- ASCII lowercase of a string. -/
def lowerStr (s : String) : String := ⟨s.data.map lowerChar⟩

/-- ASCII uppercase of one character (as `str.upper` acts on ASCII). -/
def upperChar (c : Char) : Char :=
  if 97 ≤ c.toNat ∧ c.toNat ≤ 122 then Char.ofNat (c.toNat - 32) else c

/-- URL scheme characters (RFC 3986: ALPHA / DIGIT / "+" / "-" / "."). -/
def isSchemeChar (c : Char) : Bool :=
  c.isAlpha || c.isDigit || c = '+' || c = '-' || c = '.'

/-- `yarl`'s default ports (`DEFAULT_PORTS`), used by `URL.port` when no
explicit port is present. -/
def defaultPort : String → Option Nat
  | "http" => some 80
  | "https" => some 443
  | "ws" => some 80
  | "wss" => some 443
  | _ => none

/-- Parsed URL components as exposed by `yarl.URL`: `scheme`, `host`
(userinfo stripped; `none` when empty or absent), the explicit port,
`path`, and `query_string`; the fragment is dropped. -/
structure UrlParts where
  scheme : Option String := none
  host : Option String := none
  eport : Option Nat := none
  path : String := ""
  query : String := ""
  deriving Repr, DecidableEq

/-- `yarl.URL.port`: the explicit port, or the scheme's default port. -/
def UrlParts.port (u : UrlParts) : Option Nat :=
  match u.eport with
  | some p => some p
  | none => defaultPort (lowerStr (u.scheme.getD ""))

/-- Detect a leading `scheme:`: a non-empty alpha-initial run of scheme
characters before the first `':'`.  Returns the remainder after the colon,
or the input unchanged when there is no scheme. -/
def detectScheme (cs : List Char) : Option String × List Char :=
  match (splitFirstChar ':' cs).2 with
  | none => (none, cs)
  | some rest =>
    match (splitFirstChar ':' cs).1 with
    | [] => (none, cs)
    | c0 :: pre =>
      if c0.isAlpha ∧ (c0 :: pre).all isSchemeChar then (some ⟨c0 :: pre⟩, rest)
      else (none, cs)

/-- Split a `host[:port]` component (userinfo already stripped): a trailing
`:digits` run is the port.  Fails (as `yarl.URL` raises) on an empty or
non-numeric port, or a host containing `':'`, `'['`, `']'`. -/
def parseHostPort (hostport : List Char) : Option (Option String × Option Nat) :=
  match (splitFirstChar ':' hostport.reverse).2 with
  | none =>
    if hostport.any (fun c => c = '[' ∨ c = ']') then none
    else some (if hostport = [] then none else some ⟨hostport⟩, none)
  | some revHost =>
    if (splitFirstChar ':' hostport.reverse).1.reverse = [] then none
    else if ((splitFirstChar ':' hostport.reverse).1.reverse).all Char.isDigit
    then
      if revHost.reverse.any (fun c => c = ':' ∨ c = '[' ∨ c = ']') then none
      else some (if revHost.reverse = [] then none else some ⟨revHost.reverse⟩,
        some (digitsToNat ((splitFirstChar ':' hostport.reverse).1.reverse)))
    else none

/-- Parse an authority component: strip userinfo at the last `'@'`, then
split host and port. -/
def parseAuthority (auth : List Char) : Option (Option String × Option Nat) :=
  parseHostPort (((splitFirstChar '@' auth.reverse).1).reverse)

/-- The authority run of the remainder after `//`: up to the first `'/'` or
`'?'`. -/
def authSpan (c : Char) : Bool := ¬ (c = '/' ∨ c = '?')

/-- Parse `authority path?query` (the part after `scheme://`). -/
def parseWithAuthority (scheme : Option String) (afterSlashes : List Char) :
    Option UrlParts :=
  match parseAuthority (afterSlashes.takeWhile authSpan) with
  | none => none
  | some hp =>
    some { scheme := scheme, host := hp.1, eport := hp.2,
           path := ⟨(splitFirstChar '?' (afterSlashes.dropWhile authSpan)).1⟩,
           query :=
             ⟨((splitFirstChar '?' (afterSlashes.dropWhile authSpan)).2).getD []⟩ }

/-- Parse a scheme-less remainder with no authority: `path?query`. -/
def parseNoAuthority (scheme : Option String) (rest : List Char) :
    Option UrlParts :=
  some { scheme := scheme, host := none, eport := none,
         path := ⟨(splitFirstChar '?' rest).1⟩,
         query := ⟨((splitFirstChar '?' rest).2).getD []⟩ }

/-- Dispatch on whether the post-scheme remainder starts with `//`. -/
def parseAfterScheme (sr : Option String × List Char) : Option UrlParts :=
  if sr.2.take 2 = ['/', '/'] then parseWithAuthority sr.1 (sr.2.drop 2)
  else parseNoAuthority sr.1 sr.2

/-- Parse a URL string into `yarl`-style components (the plain-ASCII subset;
`none` models a `yarl` parse error): drop the fragment, detect the scheme,
then parse the remainder. -/
def parseURL (s : String) : Option UrlParts :=
  parseAfterScheme (detectScheme ((splitFirstChar '#' s.data).1))

/-! ### `posixpath.normpath` -/

/-- One step of `posixpath.normpath`'s component loop; `one` records
whether the path had initial slashes. -/
def npStep (one : Bool) (acc : List (List Char)) (comp : List Char) :
    List (List Char) :=
  if comp = [] ∨ comp = ['.'] then acc
  else if comp ≠ ['.', '.'] ∨ (¬ one ∧ acc = []) ∨
      (acc ≠ [] ∧ acc.getLast? = some ['.', '.']) then acc ++ [comp]
  else acc.dropLast

/-- The initial-slash prefix kept by `posixpath.normpath`: exactly two
slashes are preserved (POSIX), one otherwise, none for relative paths. -/
def normpathPrefix (p : List Char) : List Char :=
  if p.take 2 = ['/', '/'] ∧ p.take 3 ≠ ['/', '/', '/'] then ['/', '/']
  else if p.take 1 = ['/'] then ['/'] else []

/-- `posixpath.normpath` on character lists: collapse `//`, resolve `.` and
`..` (keeping leading `..` on relative paths, preserving exactly-two initial
slashes per POSIX). -/
def normpathL (p : List Char) : List Char :=
  if p = [] then ['.']
  else
    let res := normpathPrefix p ++
      joinSlash ((splitSlash p).foldl (npStep (p.take 1 = ['/'])) [])
    if res = [] then ['.'] else res

/-- `posixpath.normpath` on strings. -/
def normpath (p : String) : String := ⟨normpathL p.data⟩

/-- Remove all trailing `'/'` characters (`str.rstrip("/")`). -/
def rstripSlash (s : String) : String :=
  ⟨(s.data.reverse.dropWhile (fun c => c = '/')).reverse⟩

/-- `if not norm_path.startswith("/"): norm_path = "/" + norm_path`. -/
def ensureSlash (np : String) : String :=
  if np.data.take 1 = ['/'] then np else "/" ++ np

/-- `if norm_path != "/" and norm_path.endswith("/"):
norm_path = norm_path.rstrip("/")`. -/
def stripTrailNonRoot (np2 : String) : String :=
  if np2 ≠ "/" ∧ np2.data.getLast? = some '/' then rstripSlash np2 else np2

/-- The path pipeline of `normalize_url`: `posixpath.normpath`, ensure a
leading slash, strip any trailing slash except on the root. -/
def normalizePath (raw : String) : String :=
  stripTrailNonRoot (ensureSlash (normpath raw))

/-! ### `_canonical_netloc` and `normalize_url` -/

/-- Lowercased scheme (`(u.scheme or "").lower()`). -/
def canonicalScheme (u : UrlParts) : String := lowerStr (u.scheme.getD "")

/-- Lowercased host (`u.host or None`, then `.lower()`). -/
def canonicalHost (u : UrlParts) : Option String := u.host.map lowerStr

/-- Default-port dropping (`80` for http, `443` for https) applied to
`u.port`. -/
def canonicalPort (u : UrlParts) : Option Nat :=
  match u.port with
  | none => none
  | some p =>
    if (canonicalScheme u = "http" ∧ p = 80) ∨
        (canonicalScheme u = "https" ∧ p = 443) then none
    else some p

/-- `str(URL.build(scheme=…, host=…, port=…, path=…, query=…))` for the
modelled subset: empty scheme yields a `//host` form, an absent port is
omitted, an empty path is omitted, an empty query is omitted. -/
def buildUrl (scheme host : String) (port : Option Nat) (path query : String) :
    String :=
  (if scheme = "" then "//" else scheme ++ "://") ++ host ++
    (match port with
     | some p => ":" ++ (⟨natDigits p⟩ : String)
     | none => "") ++
    path ++ (if query = "" then "" else "?" ++ query)

/-- `normalize_url` on parsed components: canonical netloc, path pipeline,
query preserved verbatim; with a host build a full URL, otherwise return
`path[?query]`. -/
def normalizeParts (u : UrlParts) : String :=
  match canonicalHost u with
  | some h => buildUrl (canonicalScheme u) h (canonicalPort u)
      (normalizePath (if u.path = "" then "/" else u.path)) u.query
  | none => normalizePath (if u.path = "" then "/" else u.path) ++
      (if u.query = "" then "" else "?" ++ u.query)

/-- `normalize_url(url)`; `none` models the (defensively caught) parse
error from `yarl.URL`. -/
def normalizeUrl (s : String) : Option String := (parseURL s).map normalizeParts

/-- `Request.__post_init__`: normalize the URL, keeping the original URL
and recording `meta["url_normalize_error"]` (via `setdefault`) when
`normalize_url` raises. -/
def mkRequest (url : String) (meta : List (String × String) := [])
    (headers : List (String × String) := []) (priority : Int := 0)
    (method : String := "GET") (body : Option Bytes := none) : Request :=
  match normalizeUrl url with
  | some u =>
    { url := u, meta := meta, headers := headers, priority := priority,
      method := method, body := body }
  | none =>
    let meta2 := if meta.any (fun kv => kv.1 = "url_normalize_error") then meta
      else meta ++ [("url_normalize_error", "normalize_url failed")]
    { url := url, meta := meta2, headers := headers, priority := priority,
      method := method, body := body }

/-- C7: for every Request constructed from a URL string on which
`normalize_url` succeeds, the stored `url` field is exactly the
`normalize_url` of the given URL. -/
theorem C7_request_url_normalized (url : String)
    (meta headers : List (String × String)) (priority : Int) (method : String)
    (body : Option Bytes) (u : String) (h : normalizeUrl url = some u) :
    (mkRequest url meta headers priority method body).url = u := by
  simp [mkRequest, h]

/-- Witness for C7: a concrete messy URL (uppercase scheme/host, userinfo,
default port, dot segments, duplicate and trailing slashes, fragment) is
normalized at construction. -/
theorem C7_witness :
    normalizeUrl "HTTP://User@Ex.COM:80/a/./b/../c/?q=1#frag" =
      some "http://ex.com/a/c?q=1" ∧
    (mkRequest "HTTP://User@Ex.COM:80/a/./b/../c/?q=1#frag" [] [] 0 "GET"
        none).url = "http://ex.com/a/c?q=1" :=
  ⟨by decide,
   C7_request_url_normalized "HTTP://User@Ex.COM:80/a/./b/../c/?q=1#frag"
     [] [] 0 "GET" none "http://ex.com/a/c?q=1" (by decide)⟩

/-- C8 counterexample: `normalize_url` is not idempotent on every URL on
which it succeeds.  `normalize_url("..") = "/.."` (posixpath.normpath keeps
the leading `..` of a relative path and the pipeline then prepends `/`),
but normalizing again resolves it: `normalize_url("/..") = "/"`. -/
theorem C8_counterexample :
    normalizeUrl ".." = some "/.." ∧
    normalizeUrl "/.." = some "/" ∧
    (normalizeUrl "..").bind normalizeUrl ≠ normalizeUrl ".." := by
  refine ⟨by decide, by decide, ?_⟩
  decide

/-! ## Request fingerprinting (`src/qcrawl/utils/fingerprint.py`)

`RequestFingerprinter.fingerprint_bytes` with the default construction
(no `ignore_query_params`/`keep_query_params`) and default arguments
(`digest_size=16`, `algorithm="blake2b"`).  `_filter_query_params` parses
the query into items and, when non-empty, rebuilds the URL via
`str(u.with_query(items))` (which renders every item as `k=v`);
`_normalized_url` then applies `normalize_url`.  The hash input is
`b"\x00".join(filter(None, [method_bytes, url_bytes, body_bytes]))` — note
the `filter(None, …)`, which removes empty components before joining. -/

/-- UTF-8 encoding of one character. -/
def utf8Char (c : Char) : List Nat :=
  let n := c.toNat
  if n < 128 then [n]
  else if n < 2048 then [192 + n / 64, 128 + n % 64]
  else if n < 65536 then [224 + n / 4096, 128 + n / 64 % 64, 128 + n % 64]
  else [240 + n / 262144, 128 + n / 4096 % 64, 128 + n / 64 % 64, 128 + n % 64]

/-- UTF-8 encoding of a string (`str.encode("utf-8")`). -/
def utf8 (s : String) : Bytes := (s.data.map utf8Char).flatten

/-- Split a character list on `'&'`. -/
def splitAmp : List Char → List (List Char)
  | [] => [[]]
  | x :: xs =>
    if x = '&' then [] :: splitAmp xs
    else
      match splitAmp xs with
      | s :: ss => (x :: s) :: ss
      | [] => [[x]]

/-- Parse a query string into key/value items (split on `'&'`, each item at
its first `'='`; empty segments are skipped), as `yarl`'s query multidict
enumerates them for the modelled subset. -/
def parseQueryItems (q : String) : List (String × String) :=
  (splitAmp q.data).filterMap (fun kv =>
    if kv = [] then none
    else
      let r := splitFirstChar '=' kv
      some ((⟨r.1⟩ : String), (⟨(r.2).getD []⟩ : String)))

/-- Render query items as `with_query` does: `k=v` pairs joined by `'&'`. -/
def joinQueryItems (items : List (String × String)) : String :=
  match items with
  | [] => ""
  | [kv] => kv.1 ++ "=" ++ kv.2
  | kv :: rest => kv.1 ++ "=" ++ kv.2 ++ "&" ++ joinQueryItems rest

/-- `str(u.with_query(items))` for the modelled subset: rebuild the URL from
its components with the new query string (userinfo and fragment, which the
later `normalize_url` discards anyway, are not represented). -/
def rebuildWithQuery (u : UrlParts) (q : String) : String :=
  (match u.host with
   | some h =>
     (match u.scheme with
      | some sc => sc ++ "://"
      | none => "//") ++ h ++
       (match u.eport with
        | some p => ":" ++ (⟨natDigits p⟩ : String)
        | none => "")
   | none =>
     match u.scheme with
     | some sc => sc ++ ":"
     | none => "") ++ u.path ++ (if q = "" then "" else "?" ++ q)

/-- `RequestFingerprinter._filter_query_params` with the default (empty)
ignore/keep sets: return the URL unchanged when it has no query items, else
rebuild it with all items re-rendered. -/
def filterQueryParamsDefault (url : String) : Option String :=
  match parseURL url with
  | none => none
  | some u =>
    let items := parseQueryItems u.query
    if items = [] then some url
    else some (rebuildWithQuery u (joinQueryItems items))

/-- `RequestFingerprinter._normalized_url`: query filtering followed by full
canonical normalization. -/
def fpNormalizedUrl (url : String) : Option String :=
  (filterQueryParamsDefault url).bind normalizeUrl

/-- `method_bytes`: `(request.method or "GET").upper().encode("ascii",
"ignore")` (ASCII uppercase, non-ASCII characters dropped). -/
def methodBytesOf (r : Request) : Bytes :=
  let m := if r.method = "" then "GET" else r.method
  ((m.data.map upperChar).filter (fun c => c.toNat < 128)).map Char.toNat

/-- `body_bytes`: the request body's bytes, empty when the body is absent or
empty (`if body:` treats `b""` like `None`). -/
def bodyBytesOf (r : Request) : Bytes := r.body.getD []

/-- `b"\x00".join`. -/
def joinZero : List Bytes → Bytes
  | [] => []
  | [a] => a
  | a :: rest => a ++ 0 :: joinZero rest

/-- The bytes hashed by `fingerprint_bytes`:
`b"\x00".join(filter(None, [method_bytes, url_bytes, body_bytes]))`; `none`
when URL parsing raises. -/
def fingerprintData (r : Request) : Option Bytes :=
  (fpNormalizedUrl r.url).map (fun nu =>
    joinZero (([methodBytesOf r, utf8 nu, bodyBytesOf r]).filter
      (fun x => x ≠ [])))

/-- `fingerprint_bytes(request)` with default arguments: the 16-byte
BLAKE2b digest of the joined data. -/
def fingerprintBytes (r : Request) : Option Bytes :=
  (fingerprintData r).map (fun d => blake2b d 16)

/-- Modelled from the spec: the claimed hash input
`method ⊕ 0x00 ⊕ normalized-url ⊕ 0x00 ⊕ body-bytes`, "the three
components are always joined by zero-byte separators, including when the
body is absent" (body-bytes empty in that case). -/
def specFingerprintData (r : Request) : Option Bytes :=
  (fpNormalizedUrl r.url).map (fun nu =>
    methodBytesOf r ++ 0 :: utf8 nu ++ 0 :: bodyBytesOf r)

/-- `b"\x00".join(filter(None, [a, b, c]))` with `a` and `b` non-empty:
the zero byte before `c` appears only when `c` is non-empty. -/
theorem joinZero_filter3 (a b c : Bytes) (ha : a ≠ []) (hb : b ≠ []) :
    joinZero ([a, b, c].filter (fun x => x ≠ [])) =
      if c = [] then a ++ 0 :: b else a ++ 0 :: b ++ 0 :: c := by
  by_cases hc : c = []
  · subst hc
    simp [List.filter, ha, hb, joinZero]
  · simp [List.filter, ha, hb, hc, joinZero]

/-- C2 counterexample: for the bodyless request `GET http://a/x`, the code's
`filter(None, …)` drops the empty body component, so the hashed bytes are
`b"GET\x00http://a/x"` with no trailing zero byte — not the claimed
`b"GET\x00http://a/x\x00"` — and the digests differ. -/
theorem C2_counterexample :
    fingerprintBytes { url := "http://a/x" } ≠
      (specFingerprintData { url := "http://a/x" }).map (fun d => blake2b d 16) ∧
    fingerprintBytes { url := "http://a/x" } =
      some [201, 175, 49, 120, 254, 87, 199, 63, 106, 72, 116, 90, 221, 22,
            63, 40] ∧
    (specFingerprintData { url := "http://a/x" }).map (fun d => blake2b d 16) =
      some [13, 240, 53, 248, 182, 99, 35, 53, 175, 3, 91, 120, 39, 39, 133,
            240] := by
  refine ⟨?_, by decide, by decide⟩
  decide

/-- C2 (amended): with default arguments, `fingerprint_bytes` is the
16-byte BLAKE2b digest of
`method-bytes ++ 0x00 ++ UTF-8(normalized URL) ++ 0x00 ++ body-bytes` when
the body is present and non-empty; when the body is absent (or empty) the
empty component is dropped by `filter(None, …)` before joining, and the
digest is over `method-bytes ++ 0x00 ++ UTF-8(normalized URL)` with no
trailing separator. -/
theorem C2_fingerprint_layout (r : Request) (nu : String)
    (h : fpNormalizedUrl r.url = some nu)
    (hm : methodBytesOf r ≠ []) (hu : utf8 nu ≠ []) :
    (bodyBytesOf r ≠ [] →
      fingerprintBytes r =
        some (blake2b (methodBytesOf r ++ 0 :: utf8 nu ++ 0 :: bodyBytesOf r) 16)) ∧
    (bodyBytesOf r = [] →
      fingerprintBytes r =
        some (blake2b (methodBytesOf r ++ 0 :: utf8 nu) 16)) := by
  constructor <;> intro hb <;>
    · simp only [fingerprintBytes, fingerprintData, h, Option.map_some']
      rw [joinZero_filter3 _ _ _ hm hu]
      simp [hb]

/-- Witness for C2 at concrete requests: one with body `[1, 2]`, one with
no body. -/
theorem C2_witness :
    fingerprintBytes { url := "http://a/x", body := some [1, 2] } =
      some (blake2b (methodBytesOf { url := "http://a/x", body := some [1, 2] }
        ++ 0 :: utf8 "http://a/x"
        ++ 0 :: bodyBytesOf { url := "http://a/x", body := some [1, 2] }) 16) ∧
    fingerprintBytes { url := "http://a/x" } =
      some (blake2b (methodBytesOf { url := "http://a/x" }
        ++ 0 :: utf8 "http://a/x") 16) :=
  ⟨(C2_fingerprint_layout { url := "http://a/x", body := some [1, 2] }
      "http://a/x" (by decide) (by decide) (by decide)).1 (by decide),
   (C2_fingerprint_layout { url := "http://a/x" } "http://a/x" (by decide)
      (by decide) (by decide)).2 (by decide)⟩

/-- C9: the fingerprint depends only on method, URL and body — two requests
differing in headers, priority or meta have equal fingerprints — and,
within one crawl, after a first `Scheduler.add` of such a request succeeded
(`queue.put` returned normally), a second `add` of the other request is
treated as a duplicate: it returns with the state unchanged and emits
nothing (never delivered, never enqueued). -/
theorem C9_fingerprint_headers_meta_irrelevant (r1 r2 : Request)
    (hm : r1.method = r2.method) (hu : r1.url = r2.url)
    (hb : r1.body = r2.body) :
    fingerprintBytes r1 = fingerprintBytes r2 ∧
    (∀ (st : SchedState) (pb : PutBehavior), st.closed = false →
      ((fingerprintBytes r1).getD []) ∉ st.seen →
      schedAdd (fun r => (fingerprintBytes r).getD [])
          ((schedAdd (fun r => (fingerprintBytes r).getD []) st r1 .ok).1) r2 pb =
        ((schedAdd (fun r => (fingerprintBytes r).getD []) st r1 .ok).1, [])) := by
  have hfp : fingerprintBytes r1 = fingerprintBytes r2 := by
    simp only [fingerprintBytes, fingerprintData, fpNormalizedUrl,
      methodBytesOf, bodyBytesOf, hm, hu, hb]
  refine ⟨hfp, ?_⟩
  intro st pb hc hns
  have hseen : ((schedAdd (fun r => (fingerprintBytes r).getD []) st r1 .ok).1).seen
      = (fingerprintBytes r1).getD [] :: st.seen := by
    simp only [schedAdd, hc, Bool.false_eq_true, if_false, if_neg hns]
    split <;> rfl
  have hclosed : ((schedAdd (fun r => (fingerprintBytes r).getD []) st r1 .ok).1).closed
      = false := by
    simp only [schedAdd, hc, Bool.false_eq_true, if_false, if_neg hns]
    split <;> rfl
  have hmem : (fingerprintBytes r2).getD [] ∈
      ((schedAdd (fun r => (fingerprintBytes r).getD []) st r1 .ok).1).seen := by
    rw [← hfp, hseen]
    exact List.mem_cons_self _ _
  generalize hG : (schedAdd (fun r => (fingerprintBytes r).getD []) st r1 .ok).1 = st1
    at hclosed hmem ⊢
  simp [schedAdd, hclosed, hmem]

/-- Requests for the C9 witness: same method/URL/body, different headers,
meta and priority. -/
def rH1 : Request :=
  { url := "http://a/x", headers := [("Accept", "text/html")], priority := 1 }

def rH2 : Request :=
  { url := "http://a/x", meta := [("depth", "2")], priority := 5 }

/-- Witness for C9: the two concrete requests share a fingerprint and the
second add is a silent no-op. -/
theorem C9_witness :
    fingerprintBytes rH1 = fingerprintBytes rH2 ∧
    schedAdd (fun r => (fingerprintBytes r).getD [])
        ((schedAdd (fun r => (fingerprintBytes r).getD [])
          SchedState.init rH1 .ok).1) rH2 .ok =
      ((schedAdd (fun r => (fingerprintBytes r).getD [])
          SchedState.init rH1 .ok).1, []) :=
  ⟨(C9_fingerprint_headers_meta_irrelevant rH1 rH2 rfl rfl rfl).1,
   (C9_fingerprint_headers_meta_irrelevant rH1 rH2 rfl rfl rfl).2
     SchedState.init .ok rfl (List.not_mem_nil _)⟩

/-- C3 counterexample: with the real fingerprinter, after a first
`add(u1)` was dropped by QueueFull (its fingerprint was inserted into
`seen` and then removed by `seen.discard`), a second `add` of a request
with the same fingerprint is NOT dropped: it is enqueued again. -/
theorem C3_counterexample :
    ((schedAdd (fun r => (fingerprintBytes r).getD [])
        SchedState.init u1 .queueFull).1).seen = [] ∧
    (schedAdd (fun r => (fingerprintBytes r).getD [])
        ((schedAdd (fun r => (fingerprintBytes r).getD [])
          SchedState.init u1 .queueFull).1) u1 .ok).2 =
      [.scheduled u1, .enqueued u1] ∧
    (schedAdd (fun r => (fingerprintBytes r).getD [])
        ((schedAdd (fun r => (fingerprintBytes r).getD [])
          SchedState.init u1 .queueFull).1) u1 .ok).1.queued = [u1] := by
  refine ⟨by decide, by decide, by decide⟩

/-- C3 (amended): while a fingerprint remains in `seen`, every `add` of a
request with that fingerprint is dropped (state unchanged, nothing emitted,
so never enqueued or dispatched); but a QueueFull failure of `queue.put`
removes the fingerprint from `seen` again (`seen.discard`), after which a
request with the same fingerprint is re-admittable. -/
theorem C3_dedup_until_queuefull_discard :
    (∀ (fp : Request → Bytes) (st : SchedState) (r : Request)
        (pb : PutBehavior), st.closed = false → fp r ∈ st.seen →
      schedAdd fp st r pb = (st, [])) ∧
    (∀ (fp : Request → Bytes) (st : SchedState) (r : Request),
      st.closed = false → fp r ∉ st.seen → (deliverLoop st.waiters).1 = false →
      fp r ∉ ((schedAdd fp st r .queueFull).1).seen) := by
  constructor
  · intro fp st r pb hc hmem
    simp [schedAdd, hc, hmem]
  · intro fp st r hc hns hw
    simp only [schedAdd, hc, Bool.false_eq_true, if_false, if_neg hns, hw,
      Bool.false_eq_true, if_false]
    rw [List.erase_cons_head]
    exact hns

/-- Witness for C3's amended statement at concrete inputs. -/
theorem C3_witness :
    schedAdd (fun _ => [7]) { seen := [[7]] } u1 .ok = ({ seen := [[7]] }, []) ∧
    (fun (_ : Request) => ([7] : Bytes)) u1 ∉
      ((schedAdd (fun _ => [7]) SchedState.init u1 .queueFull).1).seen :=
  ⟨C3_dedup_until_queuefull_discard.1 (fun _ => [7]) { seen := [[7]] } u1 .ok
     rfl (List.mem_cons_self _ _),
   C3_dedup_until_queuefull_discard.2 (fun _ => [7]) SchedState.init u1
     rfl (List.not_mem_nil _) rfl⟩

/-! ### Character-level lemmas for the URL round-trip -/

theorem char_toNat_ofNat (n : Nat) (h : n < 55296) : (Char.ofNat n).toNat = n := by
  unfold Char.ofNat
  rw [dif_pos (Or.inl h)]
  rfl

theorem lowerChar_toNat (c : Char) :
    (lowerChar c).toNat = if 65 ≤ c.toNat ∧ c.toNat ≤ 90 then c.toNat + 32
      else c.toNat := by
  unfold lowerChar
  split
  · rename_i h
    rw [char_toNat_ofNat _ (by omega)]
  · rfl

theorem isAlpha_of_lower_range (c : Char) (h1 : 97 ≤ c.toNat)
    (h2 : c.toNat ≤ 122) : c.isAlpha = true := by
  simp only [Char.isAlpha, Char.isLower, Char.isUpper, Bool.or_eq_true,
    Bool.and_eq_true, decide_eq_true_eq]
  right
  exact ⟨h1, h2⟩

theorem lowerChar_idem (c : Char) : lowerChar (lowerChar c) = lowerChar c := by
  unfold lowerChar
  split
  · rename_i h
    rw [if_neg]
    rw [char_toNat_ofNat _ (by omega)]
    omega
  · rfl

theorem lowerChar_eq_of_lt (c d : Char) (h : lowerChar c = d)
    (hd : d.toNat < 97) : c = d := by
  unfold lowerChar at h
  split at h
  · rename_i hr
    have := char_toNat_ofNat (c.toNat + 32) (by omega)
    rw [h] at this
    omega
  · exact h

theorem lowerStr_idem (s : String) : lowerStr (lowerStr s) = lowerStr s := by
  unfold lowerStr
  simp only [List.map_map]
  congr 1
  exact List.map_congr_left (fun c _ => lowerChar_idem c)

theorem lowerStr_empty : lowerStr "" = "" := rfl

/-- Characters below code point 97 survive `lowerStr` membership in both
directions: if `d` is such a character and `d ∈ lowerStr s` then `d ∈ s`. -/
theorem mem_lowerStr_of_lt (s : String) (d : Char) (hd : d.toNat < 97)
    (h : d ∈ (lowerStr s).data) : d ∈ s.data := by
  unfold lowerStr at h
  simp only [List.mem_map] at h
  obtain ⟨c, hc, hcd⟩ := h
  rwa [lowerChar_eq_of_lt c d hcd hd] at hc

theorem isAlpha_lowerChar (c : Char) (h : c.isAlpha = true) :
    (lowerChar c).isAlpha = true := by
  unfold lowerChar
  split
  · rename_i hr
    have ht := char_toNat_ofNat (c.toNat + 32) (by omega)
    exact isAlpha_of_lower_range (Char.ofNat (c.toNat + 32))
      (by rw [ht]; omega) (by rw [ht]; omega)
  · exact h

theorem isSchemeChar_lowerChar (c : Char) (h : isSchemeChar c = true) :
    isSchemeChar (lowerChar c) = true := by
  unfold lowerChar
  split
  · rename_i hr
    have ht := char_toNat_ofNat (c.toNat + 32) (by omega)
    simp only [isSchemeChar, Bool.or_eq_true]
    left; left; left; left
    exact isAlpha_of_lower_range (Char.ofNat (c.toNat + 32))
      (by rw [ht]; omega) (by rw [ht]; omega)
  · exact h

theorem isSchemeChar_ne (c : Char) (h : isSchemeChar c = true) :
    c ≠ ':' ∧ c ≠ '/' ∧ c ≠ '?' ∧ c ≠ '#' := by
  refine ⟨?_, ?_, ?_, ?_⟩ <;> (intro he; subst he; exact absurd h (by decide))

/-! ### Splitting lemmas -/

theorem splitFirstChar_not_mem (c : Char) (l : List Char) (h : c ∉ l) :
    splitFirstChar c l = (l, none) := by
  induction l with
  | nil => rfl
  | cons x xs ih =>
    simp only [List.mem_cons, not_or] at h
    simp only [splitFirstChar]
    rw [if_neg (fun he => h.1 he.symm), ih h.2]

theorem splitFirstChar_append (c : Char) (xs ys : List Char) (h : c ∉ xs) :
    splitFirstChar c (xs ++ c :: ys) = (xs, some ys) := by
  induction xs with
  | nil => simp [splitFirstChar]
  | cons x xt ih =>
    simp only [List.mem_cons, not_or] at h
    rw [List.cons_append]
    simp only [splitFirstChar]
    rw [if_neg (fun he => h.1 he.symm), ih h.2]

theorem takeWhile_append_of (p : Char → Bool) (xs ys : List Char)
    (hxs : ∀ x ∈ xs, p x = true) (hys : ∀ y hy, ys = y :: hy → p y = false) :
    (xs ++ ys).takeWhile p = xs ∧ (xs ++ ys).dropWhile p = ys := by
  induction xs with
  | nil =>
    cases ys with
    | nil => exact ⟨rfl, rfl⟩
    | cons y hy =>
      simp [List.takeWhile, List.dropWhile, hys y hy rfl]
  | cons x xt ih =>
    have hx := hxs x (List.mem_cons_self _ _)
    have := ih (fun z hz => hxs z (List.mem_cons_of_mem _ hz))
    simp [List.takeWhile, List.dropWhile, hx, this.1, this.2]

theorem splitSlash_singleton (xs : List Char) (h : '/' ∉ xs) :
    splitSlash xs = [xs] := by
  induction xs with
  | nil => rfl
  | cons x xt ih =>
    simp only [List.mem_cons, not_or] at h
    simp only [splitSlash, if_neg (Ne.symm h.1)]
    rw [ih h.2]

theorem splitSlash_append (xs ys : List Char) (h : '/' ∉ xs) :
    splitSlash (xs ++ '/' :: ys) = xs :: splitSlash ys := by
  induction xs with
  | nil => simp [splitSlash]
  | cons x xt ih =>
    simp only [List.mem_cons, not_or] at h
    rw [List.cons_append]
    simp only [splitSlash]
    rw [if_neg (fun he => h.1 he.symm), ih h.2]

theorem splitSlash_ne_nil (l : List Char) : splitSlash l ≠ [] := by
  cases l with
  | nil => simp [splitSlash]
  | cons x xs =>
    simp only [splitSlash]
    split
    · simp
    · split <;> simp_all

/-- Characters of `splitSlash` components come from the input and are never
`'/'`. -/
theorem splitSlash_chars (l : List Char) :
    ∀ x ∈ splitSlash l, ∀ c ∈ x, c ∈ l ∧ c ≠ '/' := by
  induction l with
  | nil =>
    intro x hx c hc
    simp only [splitSlash, List.mem_singleton] at hx
    subst hx
    cases hc
  | cons a as ih =>
    intro x hx c hc
    simp only [splitSlash] at hx
    by_cases ha : a = '/'
    · rw [if_pos ha] at hx
      rcases List.mem_cons.mp hx with h | h
      · subst h; cases hc
      · have := ih x h c hc
        exact ⟨List.mem_cons_of_mem _ this.1, this.2⟩
    · rw [if_neg ha] at hx
      rcases hs : splitSlash as with _ | ⟨s, ss⟩
      · exact absurd hs (splitSlash_ne_nil as)
      · rw [hs] at hx
        rcases List.mem_cons.mp hx with h | h
        · subst h
          rcases List.mem_cons.mp hc with h' | h'
          · subst h'; exact ⟨List.mem_cons_self _ _, ha⟩
          · have := ih s (hs ▸ List.mem_cons_self _ _) c h'
            exact ⟨List.mem_cons_of_mem _ this.1, this.2⟩
        · have := ih x (hs ▸ List.mem_cons_of_mem _ h) c hc
          exact ⟨List.mem_cons_of_mem _ this.1, this.2⟩

theorem splitSlash_joinSlash (comps : List (List Char)) (hne : comps ≠ [])
    (h : ∀ x ∈ comps, '/' ∉ x) : splitSlash (joinSlash comps) = comps := by
  induction comps with
  | nil => exact absurd rfl hne
  | cons a rest ih =>
    cases rest with
    | nil =>
      exact splitSlash_singleton a (h a (List.mem_cons_self _ _))
    | cons b bs =>
      show splitSlash (a ++ '/' :: joinSlash (b :: bs)) = _
      rw [splitSlash_append a _ (h a (List.mem_cons_self _ _))]
      rw [ih (by simp) (fun x hx => h x (List.mem_cons_of_mem _ hx))]

/-- Every character of a join is a `'/'` or comes from a component. -/
theorem joinSlash_chars (comps : List (List Char)) :
    ∀ c ∈ joinSlash comps, c = '/' ∨ ∃ x ∈ comps, c ∈ x := by
  induction comps with
  | nil => intro c hc; cases hc
  | cons a rest ih =>
    intro c hc
    cases rest with
    | nil =>
      exact Or.inr ⟨a, List.mem_cons_self _ _, hc⟩
    | cons b bs =>
      rcases List.mem_append.mp hc with h | h
      · exact Or.inr ⟨a, List.mem_cons_self _ _, h⟩
      rcases List.mem_cons.mp h with h' | h'
      · exact Or.inl h'
      · rcases ih c h' with h2 | ⟨x, hx, hcx⟩
        · exact Or.inl h2
        · exact Or.inr ⟨x, List.mem_cons_of_mem _ hx, hcx⟩

theorem getLast?_append_cons (a : List Char) (y : Char) (ys : List Char) :
    (a ++ y :: ys).getLast? = (y :: ys).getLast? := by
  induction a with
  | nil => rfl
  | cons x xt ih =>
    have hne : xt ++ y :: ys ≠ [] := by simp
    rcases List.exists_cons_of_ne_nil hne with ⟨z, zs, hz⟩
    rw [List.cons_append, hz, List.getLast?_cons_cons, ← hz, ih]

/-- The last character of a join of non-empty slash-free components is not
`'/'`. -/
theorem joinSlash_getLast (comps : List (List Char)) (hne : comps ≠ [])
    (h : ∀ x ∈ comps, x ≠ [] ∧ '/' ∉ x) :
    ∃ c, (joinSlash comps).getLast? = some c ∧ c ≠ '/' := by
  induction comps with
  | nil => exact absurd rfl hne
  | cons a rest ih =>
    cases rest with
    | nil =>
      have ha := h a (List.mem_cons_self _ _)
      show ∃ c, a.getLast? = some c ∧ c ≠ '/'
      rcases List.exists_cons_of_ne_nil ha.1 with ⟨y, ys, hy⟩
      subst hy
      refine ⟨(y :: ys).getLast (by simp), List.getLast?_eq_getLast _ _, ?_⟩
      intro hcontra
      exact ha.2 (hcontra ▸ List.getLast_mem _)
    | cons b bs =>
      obtain ⟨c, hc, hcne⟩ := ih (by simp)
        (fun x hx => h x (List.mem_cons_of_mem _ hx))
      refine ⟨c, ?_, hcne⟩
      show (a ++ '/' :: joinSlash (b :: bs)).getLast? = some c
      rw [getLast?_append_cons]
      rcases hj : joinSlash (b :: bs) with _ | ⟨z, zs⟩
      · rw [hj] at hc; cases hc
      · rw [hj] at hc
        rw [List.getLast?_cons_cons]
        exact hc

/-! ### Decimal digit lemmas -/

theorem toNat_digitChar (d : Nat) (h : d < 10) :
    (Char.ofNat (48 + d)).toNat = 48 + d :=
  char_toNat_ofNat _ (by omega)

theorem isDigit_digitChar (d : Nat) (h : d < 10) :
    (Char.ofNat (48 + d)).isDigit = true := by
  interval_cases d <;> decide

theorem digitChar_ne_colon (d : Nat) (h : d < 10) :
    Char.ofNat (48 + d) ≠ ':' := by
  interval_cases d <;> decide

theorem digitsToNat_append (xs : List Char) (c : Char) :
    digitsToNat (xs ++ [c]) = 10 * digitsToNat xs + (c.toNat - 48) := by
  simp [digitsToNat, List.foldl_append, Nat.mul_comm]

theorem natDigitsGo_spec (fuel n : Nat) (h : n < fuel) :
    digitsToNat (natDigitsGo fuel n) = n ∧ natDigitsGo fuel n ≠ [] ∧
    ∀ c ∈ natDigitsGo fuel n, c.isDigit = true ∧ c ≠ ':' := by
  induction fuel generalizing n with
  | zero => omega
  | succ f ih =>
    by_cases hn : n < 10
    · simp only [natDigitsGo, if_pos hn]
      refine ⟨?_, by simp, ?_⟩
      · simp [digitsToNat, toNat_digitChar n hn]
      · intro c hc
        simp only [List.mem_singleton] at hc
        subst hc
        exact ⟨isDigit_digitChar n hn, digitChar_ne_colon n hn⟩
    · have hdiv : n / 10 < f := by
        have h1 : n / 10 < n := Nat.div_lt_self (by omega) (by omega)
        omega
      obtain ⟨ihv, ihne, ihd⟩ := ih (n / 10) hdiv
      simp only [natDigitsGo, if_neg hn]
      refine ⟨?_, by simp, ?_⟩
      · rw [digitsToNat_append, ihv, toNat_digitChar (n % 10) (by omega)]
        omega
      · intro c hc
        rcases List.mem_append.mp hc with h' | h'
        · exact ihd c h'
        · simp only [List.mem_singleton] at h'
          subst h'
          exact ⟨isDigit_digitChar (n % 10) (by omega),
            digitChar_ne_colon (n % 10) (by omega)⟩

theorem natDigits_spec (n : Nat) :
    digitsToNat (natDigits n) = n ∧ natDigits n ≠ [] ∧
    ∀ c ∈ natDigits n, c.isDigit = true ∧ c ≠ ':' :=
  natDigitsGo_spec (n + 1) n (by omega)

/-! ### `normpath` component-fold lemmas -/

theorem npStep_nil (one : Bool) (acc : List (List Char)) :
    npStep one acc [] = acc := by
  unfold npStep
  rw [if_pos (Or.inl rfl)]

/-- Folding clean components (non-empty, not `.`, not `..`) appends them
all, for any accumulator. -/
theorem foldl_npStep_clean (one : Bool) (comps : List (List Char))
    (h : ∀ x ∈ comps, x ≠ [] ∧ x ≠ ['.'] ∧ x ≠ ['.', '.']) :
    ∀ acc, comps.foldl (npStep one) acc = acc ++ comps := by
  induction comps with
  | nil => intro acc; simp
  | cons cmp rest ih =>
    intro acc
    have hc := h cmp (List.mem_cons_self _ _)
    have step : npStep one acc cmp = acc ++ [cmp] := by
      unfold npStep
      rw [if_neg (fun h' => h'.elim hc.1 hc.2.1), if_pos (Or.inl hc.2.2)]
    rw [List.foldl_cons, step, ih (fun x hx => h x (List.mem_cons_of_mem _ hx))]
    simp

/-- Leading empty components are skipped by the fold. -/
theorem foldl_npStep_empties (one : Bool) (k : Nat) (comps : List (List Char))
    (acc : List (List Char)) :
    (List.replicate k [] ++ comps).foldl (npStep one) acc =
      comps.foldl (npStep one) acc := by
  induction k with
  | zero => rfl
  | succ n ih =>
    rw [List.replicate_succ, List.cons_append, List.foldl_cons, npStep_nil]
    exact ih

/-- With initial slashes (`one = true`), folding components whose characters
satisfy `P` over a clean accumulator yields only clean components whose
characters satisfy `P` — in particular no `..` survives in an absolute
path. -/
theorem foldl_npStep_abs (P : Char → Prop) (comps : List (List Char))
    (hcomps : ∀ x ∈ comps, ∀ c ∈ x, P c) :
    ∀ acc, (∀ x ∈ acc, x ≠ [] ∧ x ≠ ['.'] ∧ x ≠ ['.', '.'] ∧ ∀ c ∈ x, P c) →
    ∀ x ∈ comps.foldl (npStep true) acc,
      x ≠ [] ∧ x ≠ ['.'] ∧ x ≠ ['.', '.'] ∧ ∀ c ∈ x, P c := by
  induction comps with
  | nil => intro acc hacc; exact hacc
  | cons cmp rest ih =>
    intro acc hacc
    rw [List.foldl_cons]
    apply ih (fun x hx => hcomps x (List.mem_cons_of_mem _ hx))
    intro x hx
    unfold npStep at hx
    split at hx
    · exact hacc x hx
    split at hx
    · rename_i h1 h2
      rcases List.mem_append.mp hx with hxa | hxc
      · exact hacc x hxa
      · simp only [List.mem_singleton] at hxc
        subst hxc
        push_neg at h1
        rcases h2 with h2 | h2 | h2
        · exact ⟨h1.1, h1.2, h2, hcomps x (List.mem_cons_self _ _)⟩
        · simp at h2
        · obtain ⟨hne, hlast⟩ := h2
          have hmem := List.mem_of_getLast?_eq_some hlast
          exact absurd rfl (hacc _ hmem).2.2.1
    · exact hacc x (List.mem_of_mem_dropLast hx)

theorem joinSlash_ne_nil (comps : List (List Char)) (hne : comps ≠ [])
    (h : ∀ x ∈ comps, x ≠ []) : joinSlash comps ≠ [] := by
  cases comps with
  | nil => exact absurd rfl hne
  | cons a rest =>
    cases rest with
    | nil => exact h a (List.mem_cons_self _ _)
    | cons b bs =>
      show a ++ '/' :: joinSlash (b :: bs) ≠ []
      simp

theorem joinSlash_head (a : List Char) (rest : List (List Char)) (d : Char)
    (ds : List Char) (ha : a = d :: ds) :
    ∃ tl, joinSlash (a :: rest) = d :: tl := by
  cases rest with
  | nil => exact ⟨ds, by rw [ha]; rfl⟩
  | cons b bs =>
    refine ⟨ds ++ '/' :: joinSlash (b :: bs), ?_⟩
    show a ++ '/' :: joinSlash (b :: bs) = _
    rw [ha]
    rfl

theorem normpathPrefix_abs (tl : List Char) :
    normpathPrefix ('/' :: tl) = ['/', '/'] ∨ normpathPrefix ('/' :: tl) = ['/'] := by
  unfold normpathPrefix
  split
  · exact Or.inl rfl
  · rw [if_pos (show List.take 1 ('/' :: tl) = ['/'] from rfl)]
    exact Or.inr rfl

/-- `posixpath.normpath` of an absolute path is its slash prefix followed by
clean components (no empties, no dots, no `..`, characters from the
input). -/
theorem normpathL_abs (tl : List Char) :
    (∀ x ∈ (splitSlash ('/' :: tl)).foldl (npStep true) [],
        x ≠ [] ∧ x ≠ ['.'] ∧ x ≠ ['.', '.'] ∧
          ∀ c ∈ x, c ∈ ('/' :: tl) ∧ c ≠ '/') ∧
    normpathL ('/' :: tl) =
      normpathPrefix ('/' :: tl) ++
        joinSlash ((splitSlash ('/' :: tl)).foldl (npStep true) []) := by
  constructor
  · exact foldl_npStep_abs _ _ (splitSlash_chars _) [] (by intro x hx; cases hx)
  · unfold normpathL
    rw [if_neg (by simp)]
    have hone : (decide (('/' :: tl).take 1 = ['/'])) = true := by
      simp
    simp only [hone]
    rw [if_neg]
    rcases normpathPrefix_abs tl with h | h <;> simp [h]

/-- `normalizePath` of an absolute raw path is `"/"`, `""`, or a slash
prefix followed by non-empty clean components. -/
theorem normalizePath_abs (tl : List Char) :
    normalizePath ⟨'/' :: tl⟩ = "/" ∨
    (normalizePath ⟨'/' :: tl⟩ = "" ∧ normpathPrefix ('/' :: tl) = ['/', '/']) ∨
    ∃ comps, comps ≠ [] ∧
      (∀ x ∈ comps, x ≠ [] ∧ x ≠ ['.'] ∧ x ≠ ['.', '.'] ∧
        ∀ c ∈ x, c ∈ ('/' :: tl) ∧ c ≠ '/') ∧
      normalizePath ⟨'/' :: tl⟩ = ⟨normpathPrefix ('/' :: tl) ++ joinSlash comps⟩ := by
  obtain ⟨hclean, heq⟩ := normpathL_abs tl
  have hnp : normpath ⟨'/' :: tl⟩ =
      ⟨normpathPrefix ('/' :: tl) ++
        joinSlash ((splitSlash ('/' :: tl)).foldl (npStep true) [])⟩ := by
    show (⟨normpathL ('/' :: tl)⟩ : String) = _
    rw [heq]
  rcases hcomps : (splitSlash ('/' :: tl)).foldl (npStep true) [] with _ | ⟨c0, crest⟩
  · -- no components: result is the bare prefix, then "/" or "" after strip
    rw [hcomps] at hnp
    rcases normpathPrefix_abs tl with hpre | hpre <;> rw [hpre] at hnp
    · -- "//" prefix: kept by take-1 check, then stripped to ""
      right; left
      refine ⟨?_, hpre⟩
      unfold normalizePath
      rw [hnp]
      decide
    · -- "/" prefix: root stays root
      left
      unfold normalizePath
      rw [hnp]
      decide
  · right; right
    refine ⟨c0 :: crest, by simp, ?_, ?_⟩
    · rw [← hcomps]; exact hclean
    rw [hcomps] at hnp
    have hcl := hcomps ▸ hclean
    have hjoin_ne : joinSlash (c0 :: crest) ≠ [] :=
      joinSlash_ne_nil _ (by simp) (fun x hx => (hcl x hx).1)
    obtain ⟨lc, hlc, hlcne⟩ := joinSlash_getLast (c0 :: crest) (by simp)
      (fun x hx => ⟨(hcl x hx).1, fun hc => ((hcl x hx).2.2.2 _ hc).2 rfl⟩)
    have hpre_shape := normpathPrefix_abs tl
    have htake : ((⟨normpathPrefix ('/' :: tl) ++ joinSlash (c0 :: crest)⟩ :
        String)).data.take 1 = ['/'] := by
      rcases hpre_shape with h | h <;> rw [h] <;> rfl
    unfold normalizePath
    rw [hnp]
    unfold ensureSlash
    rw [if_pos htake]
    unfold stripTrailNonRoot
    rw [if_neg]
    push_neg
    intro _
    show (normpathPrefix ('/' :: tl) ++ joinSlash (c0 :: crest)).getLast? ≠
      some '/'
    rcases List.exists_cons_of_ne_nil hjoin_ne with ⟨z, zs, hz⟩
    rw [hz, getLast?_append_cons, ← hz, hlc]
    intro hcontra
    exact hlcne (by injection hcontra)

/-- `normalizePath` is a fixed point on a slash prefix followed by
non-empty clean slash-free components. -/
theorem normalizePath_fix (pre : List Char) (comps : List (List Char))
    (hpre : pre = ['/'] ∨ pre = ['/', '/']) (hne : comps ≠ [])
    (hclean : ∀ x ∈ comps, x ≠ [] ∧ x ≠ ['.'] ∧ x ≠ ['.', '.'] ∧ '/' ∉ x) :
    normalizePath ⟨pre ++ joinSlash comps⟩ = ⟨pre ++ joinSlash comps⟩ := by
  rcases List.exists_cons_of_ne_nil hne with ⟨c0, crest, hc⟩
  subst hc
  rcases List.exists_cons_of_ne_nil (hclean c0 (List.mem_cons_self _ _)).1 with
    ⟨d, ds, hd⟩
  obtain ⟨jtl, hjoin⟩ := joinSlash_head c0 crest d ds hd
  have hdne : d ≠ '/' := by
    intro h
    exact (hclean c0 (List.mem_cons_self _ _)).2.2.2 (h ▸ hd ▸ List.mem_cons_self _ _)
  have hjoin_ne : joinSlash (c0 :: crest) ≠ [] := by rw [hjoin]; simp
  obtain ⟨lc, hlc, hlcne⟩ := joinSlash_getLast (c0 :: crest) (by simp)
    (fun x hx => ⟨(hclean x hx).1, (hclean x hx).2.2.2⟩)
  -- prefix of the rebuilt path
  have hprefix : normpathPrefix (pre ++ joinSlash (c0 :: crest)) = pre := by
    rcases hpre with h | h <;> subst h <;>
      · unfold normpathPrefix
        rw [hjoin]
        simp [hdne]
  -- split of the rebuilt path
  have hsplit : splitSlash (pre ++ joinSlash (c0 :: crest)) =
      List.replicate pre.length [] ++ (c0 :: crest) := by
    have hjs := splitSlash_joinSlash (c0 :: crest) (by simp)
      (fun x hx => (hclean x hx).2.2.2)
    rcases hpre with h | h <;> subst h
    · show splitSlash ('/' :: joinSlash (c0 :: crest)) = _
      simp only [splitSlash, if_pos rfl]
      rw [hjs]
      rfl
    · show splitSlash ('/' :: '/' :: joinSlash (c0 :: crest)) = _
      simp only [splitSlash, if_pos rfl]
      rw [hjs]
      rfl
  have hone : (decide ((pre ++ joinSlash (c0 :: crest)).take 1 = ['/'])) =
      true := by
    rcases hpre with h | h <;> subst h <;> rfl
  have hfold : (splitSlash (pre ++ joinSlash (c0 :: crest))).foldl
      (npStep true) [] = c0 :: crest := by
    rw [hsplit, foldl_npStep_empties]
    rw [foldl_npStep_clean true _ (fun x hx => ⟨(hclean x hx).1,
      (hclean x hx).2.1, (hclean x hx).2.2.1⟩)]
    rfl
  have hnp : normpathL (pre ++ joinSlash (c0 :: crest)) =
      pre ++ joinSlash (c0 :: crest) := by
    unfold normpathL
    rw [if_neg (by rcases hpre with h | h <;> subst h <;> simp)]
    simp only [hone, hfold, hprefix]
    rw [if_neg (by rcases hpre with h | h <;> subst h <;> simp)]
  have hnps : normpath ⟨pre ++ joinSlash (c0 :: crest)⟩ =
      ⟨pre ++ joinSlash (c0 :: crest)⟩ := by
    show (⟨normpathL (pre ++ joinSlash (c0 :: crest))⟩ : String) = _
    rw [hnp]
  have htake : ((⟨pre ++ joinSlash (c0 :: crest)⟩ : String)).data.take 1 =
      ['/'] := by
    rcases hpre with h | h <;> subst h <;> rfl
  unfold normalizePath
  rw [hnps]
  unfold ensureSlash
  rw [if_pos htake]
  unfold stripTrailNonRoot
  rw [if_neg]
  push_neg
  intro _
  show (pre ++ joinSlash (c0 :: crest)).getLast? ≠ some '/'
  rcases List.exists_cons_of_ne_nil hjoin_ne with ⟨z, zs, hz⟩
  rw [hz, getLast?_append_cons, ← hz, hlc]
  intro hcontra
  exact hlcne (by injection hcontra)

theorem normalizePath_root : normalizePath "/" = "/" := by decide

/-! ### More `splitFirstChar` facts -/

theorem splitFirstChar_fst_subset (c : Char) (l : List Char) :
    ∀ x ∈ (splitFirstChar c l).1, x ∈ l ∧ x ≠ c := by
  induction l with
  | nil => intro x hx; cases hx
  | cons a as ih =>
    intro x hx
    simp only [splitFirstChar] at hx
    by_cases hac : a = c
    · rw [if_pos hac] at hx; cases hx
    · rw [if_neg hac] at hx
      rcases List.mem_cons.mp hx with h | h
      · subst h; exact ⟨List.mem_cons_self _ _, hac⟩
      · have := ih x h
        exact ⟨List.mem_cons_of_mem _ this.1, this.2⟩

theorem splitFirstChar_snd_subset (c : Char) (l ys : List Char)
    (h : (splitFirstChar c l).2 = some ys) : ∀ x ∈ ys, x ∈ l := by
  induction l generalizing ys with
  | nil => cases h
  | cons a as ih =>
    simp only [splitFirstChar] at h
    by_cases hac : a = c
    · rw [if_pos hac] at h
      injection h with h
      subst h
      intro x hx
      exact List.mem_cons_of_mem _ hx
    · rw [if_neg hac] at h
      intro x hx
      exact List.mem_cons_of_mem _ (ih ys h x hx)

theorem splitFirstChar_none (c : Char) (l : List Char)
    (h : (splitFirstChar c l).2 = none) : c ∉ l := by
  induction l with
  | nil => exact List.not_mem_nil c
  | cons a as ih =>
    simp only [splitFirstChar] at h
    by_cases hac : a = c
    · rw [if_pos hac] at h; cases h
    · rw [if_neg hac] at h
      intro hmem
      rcases List.mem_cons.mp hmem with h' | h'
      · exact hac h'.symm
      · exact ih h h'

theorem splitFirstChar_decomp (c : Char) (l : List Char) :
    ∀ xs ys, (splitFirstChar c l).1 = xs → (splitFirstChar c l).2 = some ys →
    l = xs ++ c :: ys := by
  induction l with
  | nil => intro xs ys _ h2; cases h2
  | cons a as ih =>
    intro xs ys h1 h2
    simp only [splitFirstChar] at h1 h2
    by_cases hac : a = c
    · rw [if_pos hac] at h1 h2
      subst hac
      simp only at h1 h2
      injection h2 with h2
      rw [← h1, ← h2]
      rfl
    · rw [if_neg hac] at h1 h2
      simp only at h1 h2
      rcases xs with _ | ⟨x0, xt⟩
      · cases h1
      · injection h1 with ha hb
        subst ha
        rw [List.cons_append, ih xt ys hb h2]

theorem dropWhile_head_not (p : Char → Bool) (l : List Char) (x : Char)
    (xs : List Char) (h : l.dropWhile p = x :: xs) : p x = false := by
  induction l with
  | nil => cases h
  | cons a as ih =>
    rw [List.dropWhile_cons] at h
    split at h
    · exact ih h
    · rename_i hp
      injection h with h1 _
      subst h1
      exact Bool.not_eq_true _ ▸ (by simpa using hp)

/-- `detectScheme` leaves the input unchanged or strips `scheme:`; the
remainder's characters come from the input. -/
theorem detectScheme_snd_subset (cs : List Char) :
    ∀ x ∈ (detectScheme cs).2, x ∈ cs := by
  intro x hx
  unfold detectScheme at hx
  rcases h2 : (splitFirstChar ':' cs).2 with _ | rest <;> simp only [h2] at hx
  · exact hx
  · rcases h1 : (splitFirstChar ':' cs).1 with _ | ⟨c0, pre⟩ <;>
      simp only [h1] at hx
    · exact hx
    · split at hx
      · exact splitFirstChar_snd_subset ':' cs rest h2 x hx
      · exact hx

/-- When `detectScheme` finds a scheme, the scheme is a non-empty
alpha-initial run of scheme characters and the input decomposes as
`scheme ++ ':' ++ remainder`. -/
theorem detectScheme_some (cs : List Char) (sc : String) (rest : List Char)
    (h : detectScheme cs = (some sc, rest)) :
    sc.data ≠ [] ∧ (∃ c0 pre, sc.data = c0 :: pre ∧ c0.isAlpha = true) ∧
    sc.data.all isSchemeChar = true ∧ cs = sc.data ++ ':' :: rest := by
  unfold detectScheme at h
  rcases h2 : (splitFirstChar ':' cs).2 with _ | rest' <;> simp only [h2] at h
  · cases h
  · rcases h1 : (splitFirstChar ':' cs).1 with _ | ⟨c0, pre⟩ <;>
      simp only [h1] at h
    · cases h
    · split at h
      · rename_i hcheck
        injection h with ha hb
        injection ha with ha
        subst hb
        refine ⟨by rw [← ha]; simp, ⟨c0, pre, by rw [← ha], hcheck.1⟩,
          by rw [← ha]; exact hcheck.2, ?_⟩
        rw [← ha]
        exact splitFirstChar_decomp ':' cs (c0 :: pre) _ h1 h2
      · cases h

/-- `detectScheme` on `scheme ++ ':' ++ rest` with a valid scheme. -/
theorem detectScheme_build (scd rest : List Char) (c0 : Char) (pre : List Char)
    (hsc : scd = c0 :: pre) (halpha : c0.isAlpha = true)
    (hall : scd.all isSchemeChar = true) :
    detectScheme (scd ++ ':' :: rest) = (some ⟨scd⟩, rest) := by
  subst hsc
  have hnc : ':' ∉ c0 :: pre := by
    intro hmem
    exact (isSchemeChar_ne _ (List.all_eq_true.mp hall _ hmem)).1 rfl
  have hs := splitFirstChar_append ':' (c0 :: pre) rest hnc
  have hs1 : (splitFirstChar ':' ((c0 :: pre) ++ ':' :: rest)).1 = c0 :: pre :=
    by rw [hs]
  have hs2 : (splitFirstChar ':' ((c0 :: pre) ++ ':' :: rest)).2 = some rest :=
    by rw [hs]
  unfold detectScheme
  simp only [hs2, hs1]
  rw [if_pos ⟨halpha, hall⟩]

/-- `detectScheme` finds no scheme on a remainder starting with `'/'`. -/
theorem detectScheme_slash (rest : List Char) :
    detectScheme ('/' :: rest) = (none, '/' :: rest) := by
  have h1 : (splitFirstChar ':' ('/' :: rest)).1 =
      '/' :: (splitFirstChar ':' rest).1 := by
    simp only [splitFirstChar]
    rw [if_neg (by decide)]
  have h2 : (splitFirstChar ':' ('/' :: rest)).2 =
      (splitFirstChar ':' rest).2 := by
    simp only [splitFirstChar]
    rw [if_neg (by decide)]
  unfold detectScheme
  rcases hr : (splitFirstChar ':' rest).2 with _ | r'
  · rw [h2, hr]
  · rw [h2, hr]
    simp only [h1]
    rw [if_neg]
    intro hcontra
    exact absurd hcontra.1 (by decide)

/-- A decimal digit is none of the URL delimiter characters. -/
theorem isDigit_ne_delims (c : Char) (h : c.isDigit = true) :
    c ≠ '#' ∧ c ≠ '/' ∧ c ≠ '?' ∧ c ≠ '@' ∧ c ≠ '[' ∧ c ≠ ']' := by
  refine ⟨?_, ?_, ?_, ?_, ?_, ?_⟩ <;>
    · intro he
      subst he
      exact absurd h (by decide)

theorem strData_append (a b : String) : (a ++ b).data = a.data ++ b.data := rfl

/-- The port fragment rendered by `buildUrl`. -/
def portFrag (prt : Option Nat) : List Char :=
  match prt with
  | some p => ':' :: natDigits p
  | none => []

/-- `parseHostPort` recovers host and explicit port from `host[:digits]`. -/
theorem parseHostPort_build (hd : List Char) (prt : Option Nat)
    (hne : hd ≠ []) (hh : ∀ c ∈ hd, c ≠ ':' ∧ c ≠ '[' ∧ c ≠ ']') :
    parseHostPort (hd ++ portFrag prt) = some (some ⟨hd⟩, prt) := by
  have hbr : ¬ (hd.any (fun c => c = '[' ∨ c = ']') = true) := by
    simp only [List.any_eq_true, decide_eq_true_eq]
    rintro ⟨c, hc, hor⟩
    rcases hor with h | h
    · exact (hh c hc).2.1 h
    · exact (hh c hc).2.2 h
  cases prt with
  | none =>
    have hcolon : ':' ∉ hd.reverse := fun hm =>
      (hh _ (List.mem_reverse.mp hm)).1 rfl
    have h2 : (splitFirstChar ':' hd.reverse).2 = none := by
      rw [splitFirstChar_not_mem ':' hd.reverse hcolon]
    unfold parseHostPort portFrag
    simp only [List.append_nil, h2]
    rw [if_neg hbr, if_neg hne]
  | some p =>
    obtain ⟨hval, hnd_ne, hdig⟩ := natDigits_spec p
    have hrev : (hd ++ portFrag (some p)).reverse =
        (natDigits p).reverse ++ ':' :: hd.reverse := by
      unfold portFrag
      simp [List.reverse_append, List.reverse_cons, List.append_assoc]
    have hcolon : ':' ∉ (natDigits p).reverse := fun hm =>
      (hdig _ (List.mem_reverse.mp hm)).2 rfl
    have hs := splitFirstChar_append ':' ((natDigits p).reverse) hd.reverse
      hcolon
    have h2 : (splitFirstChar ':' ((hd ++ portFrag (some p)).reverse)).2 =
        some hd.reverse := by rw [hrev, hs]
    have h1 : (splitFirstChar ':' ((hd ++ portFrag (some p)).reverse)).1 =
        (natDigits p).reverse := by rw [hrev, hs]
    unfold parseHostPort
    simp only [h2, h1, List.reverse_reverse]
    rw [if_neg hnd_ne]
    rw [if_pos (List.all_eq_true.mpr (fun c hc => (hdig c hc).1))]
    have hbr2 : ¬ (hd.any (fun c => c = ':' ∨ c = '[' ∨ c = ']') = true) := by
      simp only [List.any_eq_true, decide_eq_true_eq]
      rintro ⟨c, hc, hor⟩
      rcases hor with h | h | h
      · exact (hh c hc).1 h
      · exact (hh c hc).2.1 h
      · exact (hh c hc).2.2 h
    rw [if_neg hbr2, if_neg hne, hval]

/-- The query fragment rendered by `buildUrl`. -/
def queryFrag (q : String) : List Char :=
  if q = "" then [] else '?' :: q.data

/-- Parsing the path-and-query tail recovers path and query when the path
is `'?'`-free. -/
theorem splitQuery_build (pth q : String) (hpth : ∀ c ∈ pth.data, c ≠ '?') :
    (splitFirstChar '?' (pth.data ++ queryFrag q)).1 = pth.data ∧
    ((splitFirstChar '?' (pth.data ++ queryFrag q)).2).getD [] = q.data := by
  have hq : '?' ∉ pth.data := fun hm => hpth _ hm rfl
  by_cases hqe : q = ""
  · subst hqe
    unfold queryFrag
    rw [if_pos rfl, List.append_nil, splitFirstChar_not_mem '?' pth.data hq]
    exact ⟨rfl, rfl⟩
  · unfold queryFrag
    rw [if_neg hqe, splitFirstChar_append '?' pth.data q.data hq]
    exact ⟨rfl, rfl⟩

/-- Parsing a URL built from components recovers exactly those components
(host present, absolute `'?'`-free path). -/
theorem parseURL_build_host (sc h : String) (prt : Option Nat) (pth q : String)
    (hscValid : sc = "" ∨ ((∃ c0 pre, sc.data = c0 :: pre ∧ c0.isAlpha = true) ∧
      sc.data.all isSchemeChar = true))
    (hh_ne : h.data ≠ [])
    (hh : ∀ c ∈ h.data,
      c ≠ ':' ∧ c ≠ '[' ∧ c ≠ ']' ∧ c ≠ '@' ∧ c ≠ '/' ∧ c ≠ '?' ∧ c ≠ '#')
    (hpth1 : ∃ ptl, pth.data = '/' :: ptl)
    (hpth : ∀ c ∈ pth.data, c ≠ '?' ∧ c ≠ '#')
    (hq : ∀ c ∈ q.data, c ≠ '#') :
    parseURL (buildUrl sc h prt pth q) =
      some { scheme := if sc = "" then none else some sc, host := some h,
             eport := prt, path := pth, query := q } := by
  obtain ⟨ptl, hptl⟩ := hpth1
  -- the byte-level decomposition of the built URL
  have hdata : (buildUrl sc h prt pth q).data =
      (if sc = "" then ['/', '/'] else sc.data ++ [':', '/', '/']) ++
      (h.data ++ portFrag prt ++ (pth.data ++ queryFrag q)) := by
    unfold buildUrl
    by_cases hsc : sc = ""
    · rw [if_pos hsc, if_pos hsc]
      simp only [strData_append]
      cases prt <;> by_cases hqe : q = "" <;>
        simp [portFrag, queryFrag, hqe, List.append_assoc]
    · rw [if_neg hsc, if_neg hsc]
      simp only [strData_append]
      cases prt <;> by_cases hqe : q = "" <;>
        simp [portFrag, queryFrag, hqe, List.append_assoc]
  -- no fragment marker anywhere in the built URL
  have hnohash : '#' ∉ (buildUrl sc h prt pth q).data := by
    rw [hdata]
    intro hmem
    rcases List.mem_append.mp hmem with hm | hm
    · split at hm
      · simp at hm
      · rcases List.mem_append.mp hm with hm2 | hm2
        · rcases hscValid with hsc | ⟨_, hall⟩
          · rename_i hne'; exact hne' hsc
          · exact (isSchemeChar_ne _ (List.all_eq_true.mp hall _ hm2)).2.2.2 rfl
        · simp at hm2
    rcases List.mem_append.mp hm with hm2 | hm2
    · rcases List.mem_append.mp hm2 with hm3 | hm3
      · exact (hh _ hm3).2.2.2.2.2.2 rfl
      · unfold portFrag at hm3
        cases prt with
        | none => cases hm3
        | some p =>
          rcases List.mem_cons.mp hm3 with hm4 | hm4
          · cases hm4
          · exact (isDigit_ne_delims _ ((natDigits_spec p).2.2 _ hm4).1).1 rfl
    · rcases List.mem_append.mp hm2 with hm3 | hm3
      · exact (hpth _ hm3).2 rfl
      · unfold queryFrag at hm3
        split at hm3
        · cases hm3
        · rcases List.mem_cons.mp hm3 with hm4 | hm4
          · cases hm4
          · exact hq _ hm4 rfl
  have hfrag : (splitFirstChar '#' (buildUrl sc h prt pth q).data).1 =
      (buildUrl sc h prt pth q).data := by
    rw [splitFirstChar_not_mem _ _ hnohash]
  -- authority span: the authority stops exactly at the path's leading slash
  have hauth_all : ∀ x ∈ h.data ++ portFrag prt, authSpan x = true := by
    intro x hx
    have hxslash : x ≠ '/' ∧ x ≠ '?' := by
      rcases List.mem_append.mp hx with hm | hm
      · exact ⟨(hh _ hm).2.2.2.2.1, (hh _ hm).2.2.2.2.2.1⟩
      · unfold portFrag at hm
        cases prt with
        | none => cases hm
        | some p =>
          rcases List.mem_cons.mp hm with hm2 | hm2
          · subst hm2; exact ⟨by decide, by decide⟩
          · have hd := (natDigits_spec p).2.2 _ hm2
            exact ⟨(isDigit_ne_delims _ hd.1).2.1, (isDigit_ne_delims _ hd.1).2.2.1⟩
    unfold authSpan
    simp [hxslash.1, hxslash.2]
  have hpq_head : ∀ (y : Char) (hy : List Char),
      pth.data ++ queryFrag q = y :: hy → authSpan y = false := by
    intro y hy he
    rw [hptl, List.cons_append] at he
    injection he with he1 _
    subst he1
    decide
  have hspan := takeWhile_append_of authSpan (h.data ++ portFrag prt)
    (pth.data ++ queryFrag q) hauth_all hpq_head
  -- authority parse
  have hat2 : '@' ∉ (h.data ++ portFrag prt : List Char) := by
    intro hm
    rcases List.mem_append.mp hm with hm2 | hm2
    · exact (hh _ hm2).2.2.2.1 rfl
    · unfold portFrag at hm2
      cases prt with
      | none => cases hm2
      | some p =>
        rcases List.mem_cons.mp hm2 with hm3 | hm3
        · cases hm3
        · exact (isDigit_ne_delims _ ((natDigits_spec p).2.2 _ hm3).1).2.2.2.1 rfl
  have hpa : parseAuthority (h.data ++ portFrag prt) = some (some h, prt) := by
    unfold parseAuthority
    rw [splitFirstChar_not_mem '@' _ (fun hm => hat2 (List.mem_reverse.mp hm))]
    simp only [List.reverse_reverse]
    rw [parseHostPort_build h.data prt hh_ne
      (fun c hc => ⟨(hh c hc).1, (hh c hc).2.1, (hh c hc).2.2.1⟩)]
  obtain ⟨hsq1, hsq2⟩ := splitQuery_build pth q (fun c hc => (hpth c hc).1)
  -- assemble the parse of the built URL
  have hwith : ∀ schemeOpt : Option String, parseWithAuthority schemeOpt
      (h.data ++ portFrag prt ++ (pth.data ++ queryFrag q)) =
      some { scheme := schemeOpt, host := some h,
             eport := prt, path := pth, query := q } := by
    intro schemeOpt
    unfold parseWithAuthority
    rw [hspan.1, hspan.2, hpa]
    simp only [hsq1, hsq2]
  unfold parseURL
  rw [hfrag, hdata]
  by_cases hsc : sc = ""
  · rw [if_pos hsc, if_pos hsc]
    have hshape : (['/', '/'] : List Char) ++
        (h.data ++ portFrag prt ++ (pth.data ++ queryFrag q)) =
        '/' :: '/' :: (h.data ++ portFrag prt ++ (pth.data ++ queryFrag q)) :=
      rfl
    rw [hshape, detectScheme_slash]
    unfold parseAfterScheme
    rw [if_pos (by rfl)]
    exact hwith none
  · rw [if_neg hsc, if_neg hsc]
    rcases hscValid with h' | ⟨⟨c0, pre, hc0, halpha⟩, hall⟩
    · exact absurd h' hsc
    have hshape : sc.data ++ [':', '/', '/'] ++
        (h.data ++ portFrag prt ++ (pth.data ++ queryFrag q)) =
        sc.data ++ ':' ::
          ('/' :: '/' :: (h.data ++ portFrag prt ++ (pth.data ++ queryFrag q))) := by
      rw [List.append_assoc]
      rfl
    rw [hshape, detectScheme_build sc.data _ c0 pre hc0 halpha hall]
    unfold parseAfterScheme
    rw [if_pos (by rfl)]
    exact hwith (some sc)

/-- Parsing `path[?query]` (no scheme, no authority) recovers exactly the
path and query, for an absolute non-`//` path. -/
theorem parseURL_build_noHost (pth q : String)
    (hpth1 : ∃ ptl, pth.data = '/' :: ptl)
    (hpth2 : pth.data.take 2 ≠ ['/', '/'])
    (hpth : ∀ c ∈ pth.data, c ≠ '?' ∧ c ≠ '#')
    (hq : ∀ c ∈ q.data, c ≠ '#') :
    parseURL (pth ++ (if q = "" then "" else "?" ++ q)) =
      some { scheme := none, host := none, eport := none, path := pth,
             query := q } := by
  obtain ⟨ptl, hptl⟩ := hpth1
  have hdata : (pth ++ (if q = "" then "" else "?" ++ q)).data =
      pth.data ++ queryFrag q := by
    by_cases hqe : q = ""
    · rw [if_pos hqe]
      unfold queryFrag
      rw [if_pos hqe]
      simp [strData_append]
    · rw [if_neg hqe]
      unfold queryFrag
      rw [if_neg hqe]
      simp [strData_append]
  have hnohash : '#' ∉ (pth.data ++ queryFrag q : List Char) := by
    intro hmem
    rcases List.mem_append.mp hmem with hm | hm
    · exact (hpth _ hm).2 rfl
    · unfold queryFrag at hm
      split at hm
      · cases hm
      · rcases List.mem_cons.mp hm with hm2 | hm2
        · cases hm2
        · exact hq _ hm2 rfl
  have hfrag : (splitFirstChar '#' (pth.data ++ queryFrag q)).1 =
      pth.data ++ queryFrag q := by
    rw [splitFirstChar_not_mem _ _ hnohash]
  have hshape : pth.data ++ queryFrag q = '/' :: (ptl ++ queryFrag q) := by
    rw [hptl]
    rfl
  have htake2 : ('/' :: (ptl ++ queryFrag q)).take 2 ≠ ['/', '/'] := by
    rcases ptl with _ | ⟨p1, ptl2⟩
    · unfold queryFrag
      split
    <;> simp
    · have hp1 : p1 ≠ '/' := by
        intro he
        apply hpth2
        rw [hptl, he]
        rfl
      intro he
      rw [List.cons_append] at he
      exact hp1 (by injection he with _ h2; injection h2)
  obtain ⟨hsq1, hsq2⟩ := splitQuery_build pth q (fun c hc => (hpth c hc).1)
  unfold parseURL
  rw [hdata, hfrag, hshape, detectScheme_slash]
  unfold parseAfterScheme
  rw [if_neg htake2]
  unfold parseNoAuthority
  rw [← hshape]
  simp only [hsq1, hsq2]

/-- Inverse facts about `parseHostPort`: a parsed host is non-empty, drawn
from the input, and free of `':'`, `'['`, `']'`. -/
theorem parseHostPort_facts (hostport : List Char) (ho : Option String)
    (po : Option Nat) (h : parseHostPort hostport = some (ho, po)) :
    ∀ hs, ho = some hs → hs.data ≠ [] ∧
      ∀ c ∈ hs.data, c ∈ hostport ∧ c ≠ ':' ∧ c ≠ '[' ∧ c ≠ ']' := by
  unfold parseHostPort at h
  rcases h2 : (splitFirstChar ':' hostport.reverse).2 with _ | revHost <;>
    simp only [h2] at h
  · split at h
    · cases h
    · rename_i hbr
      injection h with h
      injection h with hho hpo
      intro hs hhs
      rw [← hho] at hhs
      split at hhs
      · cases hhs
      · rename_i hne
        injection hhs with hhs
        rw [← hhs]
        refine ⟨hne, ?_⟩
        intro c hc
        have hcolon : ':' ∉ hostport := by
          intro hm
          exact splitFirstChar_none ':' hostport.reverse h2
            (List.mem_reverse.mpr hm)
        have hnobr : ∀ x ∈ hostport, ¬ (x = '[' ∨ x = ']') := by
          intro x hx
          simp only [List.any_eq_true, decide_eq_true_eq] at hbr
          exact fun hor => hbr ⟨x, hx, hor⟩
        exact ⟨hc, fun he => hcolon (he ▸ hc), fun he => hnobr c hc (Or.inl he),
          fun he => hnobr c hc (Or.inr he)⟩
  · split at h
    · cases h
    split at h
    · split at h
      · cases h
      · rename_i hdig hbr
        injection h with h
        injection h with hho hpo
        intro hs hhs
        rw [← hho] at hhs
        split at hhs
        · cases hhs
        · rename_i hne
          injection hhs with hhs
          rw [← hhs]
          refine ⟨hne, ?_⟩
          intro c hc
          have hmem : c ∈ hostport := by
            have := splitFirstChar_snd_subset ':' hostport.reverse revHost h2 c
              (List.mem_reverse.mp hc)
            exact List.mem_reverse.mp this
          have hnobr : ∀ x ∈ revHost.reverse, ¬ (x = ':' ∨ x = '[' ∨ x = ']') := by
            intro x hx
            simp only [List.any_eq_true, decide_eq_true_eq] at hbr
            exact fun hor => hbr ⟨x, hx, hor⟩
          exact ⟨hmem, fun he => hnobr c hc (Or.inl he),
            fun he => hnobr c hc (Or.inr (Or.inl he)),
            fun he => hnobr c hc (Or.inr (Or.inr he))⟩
    · cases h

/-- Inverse facts about `parseURL`: a parsed scheme is a valid scheme
token; a parsed host is non-empty and free of URL delimiters; path and
query are free of the delimiters consumed by parsing; and with a host the
path is empty or starts with `'/'`. -/
theorem parseURL_facts (s : String) (u : UrlParts) (hp : parseURL s = some u) :
    (∀ sc, u.scheme = some sc →
      ((∃ c0 pre, sc.data = c0 :: pre ∧ c0.isAlpha = true) ∧
        sc.data.all isSchemeChar = true)) ∧
    (∀ hs, u.host = some hs → hs.data ≠ [] ∧
      ∀ c ∈ hs.data, c ≠ ':' ∧ c ≠ '[' ∧ c ≠ ']' ∧ c ≠ '@' ∧ c ≠ '/' ∧
        c ≠ '?' ∧ c ≠ '#') ∧
    (∀ c ∈ u.path.data, c ≠ '?' ∧ c ≠ '#') ∧
    (∀ c ∈ u.query.data, c ≠ '#') ∧
    (u.host ≠ none → u.path = "" ∨ ∃ ptl, u.path.data = '/' :: ptl) := by
  have hbf_nohash : ∀ c ∈ (splitFirstChar '#' s.data).1, c ≠ '#' :=
    fun c hc => (splitFirstChar_fst_subset '#' s.data c hc).2
  rcases hds : detectScheme ((splitFirstChar '#' s.data).1) with ⟨o, r⟩
  have hr_nohash : ∀ c ∈ r, c ≠ '#' := by
    intro c hc
    exact hbf_nohash c (detectScheme_snd_subset _ c (by rw [hds]; exact hc))
  have hscheme_fact : ∀ sc, o = some sc →
      ((∃ c0 pre, sc.data = c0 :: pre ∧ c0.isAlpha = true) ∧
        sc.data.all isSchemeChar = true) := by
    intro sc hsc
    have := detectScheme_some _ sc r (by rw [hds, hsc])
    exact ⟨this.2.1, this.2.2.1⟩
  unfold parseURL at hp
  rw [hds] at hp
  unfold parseAfterScheme at hp
  dsimp only at hp
  split at hp
  · -- authority branch
    unfold parseWithAuthority at hp
    rcases hauth : parseAuthority ((r.drop 2).takeWhile authSpan) with _ | hp2 <;>
      simp only [hauth] at hp
    · cases hp
    injection hp with hp
    subst hp
    have hauth_chars : ∀ c ∈ (r.drop 2).takeWhile authSpan,
        c ≠ '/' ∧ c ≠ '?' ∧ c ≠ '#' := by
      intro c hc
      have hspan := List.mem_takeWhile_imp hc
      have hmem := List.mem_of_mem_drop (List.takeWhile_subset _ hc)
      unfold authSpan at hspan
      simp only [decide_eq_true_eq, decide_not, Bool.not_eq_true',
        decide_eq_false_iff_not, not_or] at hspan
      exact ⟨hspan.1, hspan.2, hr_nohash c hmem⟩
    refine ⟨hscheme_fact, ?_, ?_, ?_, ?_⟩
    · -- host facts
      intro hs hhs
      have hfacts := parseHostPort_facts
        ((splitFirstChar '@' ((r.drop 2).takeWhile authSpan).reverse).1.reverse)
        hp2.1 hp2.2 (by exact hauth) hs hhs
      refine ⟨hfacts.1, ?_⟩
      intro c hc
      obtain ⟨hmem, hc1, hc2, hc3⟩ := hfacts.2 c hc
      have hmem2 := splitFirstChar_fst_subset '@' _ _ (List.mem_reverse.mp hmem)
      have hmem3 := List.mem_reverse.mp hmem2.1
      have := hauth_chars c hmem3
      exact ⟨hc1, hc2, hc3, hmem2.2, this.1, this.2.1, this.2.2⟩
    · -- path characters
      intro c hc
      have := splitFirstChar_fst_subset '?' _ _ hc
      have hmem := List.mem_of_mem_drop
        (List.dropWhile_subset _ this.1)
      exact ⟨this.2, hr_nohash c hmem⟩
    · -- query characters
      intro c hc
      rcases hq2 : (splitFirstChar '?' ((r.drop 2).dropWhile authSpan)).2 with
        _ | ys
      · rw [hq2] at hc
        cases hc
      · rw [hq2] at hc
        have := splitFirstChar_snd_subset '?' _ ys hq2 c hc
        exact hr_nohash c (List.mem_of_mem_drop (List.dropWhile_subset _ this))
    · -- with a host the path is empty or absolute
      intro _
      rcases hpq : (r.drop 2).dropWhile authSpan with _ | ⟨y, ys⟩
      · left
        rfl
      · have hy := dropWhile_head_not authSpan _ y ys hpq
        unfold authSpan at hy
        simp only [decide_not, Bool.not_eq_false', decide_eq_true_eq] at hy
        rcases hy with hy | hy <;> subst hy
        · right
          refine ⟨(splitFirstChar '?' ys).1, ?_⟩
          show (splitFirstChar '?' ('/' :: ys)).1 = _
          simp only [splitFirstChar]
          rw [if_neg (by decide)]
        · left
          show (⟨(splitFirstChar '?' ('?' :: ys)).1⟩ : String) = ""
          simp only [splitFirstChar]
          rfl
  · -- no-authority branch
    unfold parseNoAuthority at hp
    injection hp with hp
    subst hp
    refine ⟨hscheme_fact, ?_, ?_, ?_, ?_⟩
    · intro hs hhs
      cases hhs
    · intro c hc
      have := splitFirstChar_fst_subset '?' _ _ hc
      exact ⟨this.2, hr_nohash c this.1⟩
    · intro c hc
      rcases hq2 : (splitFirstChar '?' r).2 with _ | ys
      · rw [hq2] at hc
        cases hc
      · rw [hq2] at hc
        exact hr_nohash c (splitFirstChar_snd_subset '?' r ys hq2 c hc)
    · intro hcon
      exact absurd rfl hcon

/-! ### Stability of the canonical components under re-normalization -/

/-- `lowerStr` preserves scheme validity. -/
theorem lowerStr_scheme_valid (sc : String)
    (h1 : ∃ c0 pre, sc.data = c0 :: pre ∧ c0.isAlpha = true)
    (h2 : sc.data.all isSchemeChar = true) :
    (∃ c0 pre, (lowerStr sc).data = c0 :: pre ∧ c0.isAlpha = true) ∧
    (lowerStr sc).data.all isSchemeChar = true := by
  obtain ⟨c0, pre, hdata, halpha⟩ := h1
  constructor
  · refine ⟨lowerChar c0, pre.map lowerChar, ?_, isAlpha_lowerChar c0 halpha⟩
    show sc.data.map lowerChar = lowerChar c0 :: pre.map lowerChar
    simp [hdata]
  · rw [List.all_eq_true] at h2 ⊢
    intro x hx
    have hx' : x ∈ sc.data.map lowerChar := hx
    obtain ⟨y, hy, hxy⟩ := List.mem_map.mp hx'
    rw [← hxy]
    exact isSchemeChar_lowerChar y (h2 y hy)

/-- `lowerStr` preserves freedom from the URL delimiter characters (all of
which have code points below 97). -/
theorem lowerStr_host_delims (h : String)
    (hh : ∀ c ∈ h.data, c ≠ ':' ∧ c ≠ '[' ∧ c ≠ ']' ∧ c ≠ '@' ∧ c ≠ '/' ∧
      c ≠ '?' ∧ c ≠ '#') :
    ∀ c ∈ (lowerStr h).data, c ≠ ':' ∧ c ≠ '[' ∧ c ≠ ']' ∧ c ≠ '@' ∧
      c ≠ '/' ∧ c ≠ '?' ∧ c ≠ '#' := by
  intro c hc
  have hc' : c ∈ h.data.map lowerChar := hc
  obtain ⟨y, hy, hxy⟩ := List.mem_map.mp hc'
  obtain ⟨d1, d2, d3, d4, d5, d6, d7⟩ := hh y hy
  exact ⟨fun he => d1 (lowerChar_eq_of_lt y ':' (hxy.trans he) (by decide)),
    fun he => d2 (lowerChar_eq_of_lt y '[' (hxy.trans he) (by decide)),
    fun he => d3 (lowerChar_eq_of_lt y ']' (hxy.trans he) (by decide)),
    fun he => d4 (lowerChar_eq_of_lt y '@' (hxy.trans he) (by decide)),
    fun he => d5 (lowerChar_eq_of_lt y '/' (hxy.trans he) (by decide)),
    fun he => d6 (lowerChar_eq_of_lt y '?' (hxy.trans he) (by decide)),
    fun he => d7 (lowerChar_eq_of_lt y '#' (hxy.trans he) (by decide))⟩

/-- A path that does not start with `"//"` keeps a single-slash normpath
prefix. -/
theorem normpathPrefix_single (tl : List Char)
    (h : ('/' :: tl).take 2 ≠ ['/', '/']) :
    normpathPrefix ('/' :: tl) = ['/'] := by
  unfold normpathPrefix
  rw [if_neg (fun hc => h hc.1),
    if_pos (show ('/' :: tl).take 1 = ['/'] from rfl)]

/-- Consolidated facts about `normalizePath` on an absolute path whose
normalization does not degenerate to the empty string: the result is
absolute, drawn from the input characters, a fixed point of
`normalizePath`, and (for a single-slash prefix) does not start with
`"//"`. -/
theorem normalizePath_abs_facts (tl : List Char)
    (hgood : normpathPrefix ('/' :: tl) = ['/'] ∨
      normalizePath ⟨'/' :: tl⟩ ≠ "") :
    (∃ ptl, (normalizePath ⟨'/' :: tl⟩).data = '/' :: ptl) ∧
    (∀ c ∈ (normalizePath ⟨'/' :: tl⟩).data, c = '/' ∨ c ∈ tl) ∧
    normalizePath (normalizePath ⟨'/' :: tl⟩) = normalizePath ⟨'/' :: tl⟩ ∧
    (normpathPrefix ('/' :: tl) = ['/'] →
      (normalizePath ⟨'/' :: tl⟩).data.take 2 ≠ ['/', '/']) := by
  rcases normalizePath_abs tl with hcase | ⟨hcase, hpre2⟩ |
    ⟨comps, hne, hclean, hcase⟩
  · rw [hcase]
    refine ⟨⟨[], rfl⟩, ?_, normalizePath_root, fun _ => by decide⟩
    intro c hc
    left
    have hc' : c ∈ ['/'] := hc
    simpa using hc'
  · exfalso
    rcases hgood with hg | hg
    · rw [hpre2] at hg
      exact absurd hg (by decide)
    · exact hg hcase
  · obtain ⟨c0, crest, hc0⟩ := List.exists_cons_of_ne_nil hne
    subst hc0
    obtain ⟨d, ds, hd⟩ :=
      List.exists_cons_of_ne_nil (hclean c0 (List.mem_cons_self _ _)).1
    obtain ⟨jtl, hjoin⟩ := joinSlash_head c0 crest d ds hd
    have hdin : d ∈ c0 := by
      rw [hd]
      exact List.mem_cons_self _ _
    have hdne : d ≠ '/' :=
      fun hcon => ((hclean c0 (List.mem_cons_self _ _)).2.2.2 d hdin).2 hcon
    rw [hcase]
    have hpre := normpathPrefix_abs tl
    refine ⟨?_, ?_, ?_, ?_⟩
    · rcases hpre with h | h <;> rw [h]
      · exact ⟨'/' :: joinSlash (c0 :: crest), rfl⟩
      · exact ⟨joinSlash (c0 :: crest), rfl⟩
    · intro c hc
      have hc' : c ∈ normpathPrefix ('/' :: tl) ++ joinSlash (c0 :: crest) := hc
      rcases List.mem_append.mp hc' with hm | hm
      · left
        rcases hpre with h | h <;> rw [h] at hm <;> simpa using hm
      · rcases joinSlash_chars (c0 :: crest) c hm with h2 | ⟨x, hx, hcx⟩
        · left
          exact h2
        · have hcc := (hclean x hx).2.2.2 c hcx
          rcases List.mem_cons.mp hcc.1 with h3 | h3
          · exact absurd h3 hcc.2
          · right
            exact h3
    · exact normalizePath_fix (normpathPrefix ('/' :: tl)) (c0 :: crest)
        hpre.symm (by simp)
        (fun x hx => ⟨(hclean x hx).1, (hclean x hx).2.1, (hclean x hx).2.2.1,
          fun hm => ((hclean x hx).2.2.2 '/' hm).2 rfl⟩)
    · intro hp1
      rw [hp1]
      intro hcon
      have h2 : (['/', d] : List Char) = ['/', '/'] := by
        rw [hjoin] at hcon
        exact hcon
      have hd2 : d = '/' := by
        injection h2 with _ h3
        injection h3
      exact hdne hd2

/-- `u.port` when the explicit port is present. -/
theorem port_eport_some (u : UrlParts) (p : Nat) (h : u.eport = some p) :
    u.port = some p := by
  unfold UrlParts.port
  rw [h]

/-- `u.port` when no explicit port is present: the scheme's default. -/
theorem port_eport_none (u : UrlParts) (h : u.eport = none) :
    u.port = defaultPort (canonicalScheme u) := by
  unfold UrlParts.port
  rw [h]
  rfl

theorem canonicalPort_port_none (u : UrlParts) (h : u.port = none) :
    canonicalPort u = none := by
  unfold canonicalPort
  rw [h]

theorem canonicalPort_port_some (u : UrlParts) (p : Nat) (h : u.port = some p) :
    canonicalPort u =
      if (canonicalScheme u = "http" ∧ p = 80) ∨
        (canonicalScheme u = "https" ∧ p = 443) then none else some p := by
  unfold canonicalPort
  rw [h]

/-- Canonicalizing the scheme of the rebuilt URL gives the scheme back. -/
theorem canonicalScheme_rebuild (sch : String) (hidem : lowerStr sch = sch)
    (ho : Option String) (ep : Option Nat) (p q : String) :
    canonicalScheme
      { scheme := if sch = "" then none else some sch, host := ho,
        eport := ep, path := p, query := q } = sch := by
  by_cases hsc : sch = ""
  · rw [if_pos hsc, hsc]
    exact lowerStr_empty
  · rw [if_neg hsc]
    exact hidem

/-- Canonicalizing the port of the rebuilt URL gives the canonical port
back: with the same canonical scheme and the canonical port as the
explicit port, `canonicalPort` is stable. -/
theorem canonicalPort_rebuild (u u2 : UrlParts)
    (hs2 : canonicalScheme u2 = canonicalScheme u)
    (he2 : u2.eport = canonicalPort u) :
    canonicalPort u2 = canonicalPort u := by
  rcases heu : u.eport with _ | ep
  · have hpu := port_eport_none u heu
    rcases hdp : defaultPort (canonicalScheme u) with _ | dp
    · have hcu : canonicalPort u = none :=
        canonicalPort_port_none u (hpu.trans hdp)
      have hpu2 : u2.port = none := by
        rw [port_eport_none u2 (he2.trans hcu), hs2]
        exact hdp
      rw [hcu, canonicalPort_port_none u2 hpu2]
    · have hpux : u.port = some dp := hpu.trans hdp
      by_cases hcond : (canonicalScheme u = "http" ∧ dp = 80) ∨
          (canonicalScheme u = "https" ∧ dp = 443)
      · have hcu : canonicalPort u = none := by
          rw [canonicalPort_port_some u dp hpux, if_pos hcond]
        have hpu2 : u2.port = some dp := by
          rw [port_eport_none u2 (he2.trans hcu), hs2]
          exact hdp
        rw [hcu, canonicalPort_port_some u2 dp hpu2, hs2, if_pos hcond]
      · have hcu : canonicalPort u = some dp := by
          rw [canonicalPort_port_some u dp hpux, if_neg hcond]
        have hpu2 : u2.port = some dp := port_eport_some u2 dp (he2.trans hcu)
        rw [hcu, canonicalPort_port_some u2 dp hpu2, hs2, if_neg hcond]
  · have hpux := port_eport_some u ep heu
    by_cases hcond : (canonicalScheme u = "http" ∧ ep = 80) ∨
        (canonicalScheme u = "https" ∧ ep = 443)
    · have hcu : canonicalPort u = none := by
        rw [canonicalPort_port_some u ep hpux, if_pos hcond]
      rw [hcu]
      rcases hcond with ⟨hsch, hep⟩ | ⟨hsch, hep⟩
      · have hpu2 : u2.port = some 80 := by
          have h1 := port_eport_none u2 (he2.trans hcu)
          rw [hs2, hsch] at h1
          exact h1
        rw [canonicalPort_port_some u2 80 hpu2, hs2,
          if_pos (Or.inl ⟨hsch, rfl⟩)]
      · have hpu2 : u2.port = some 443 := by
          have h1 := port_eport_none u2 (he2.trans hcu)
          rw [hs2, hsch] at h1
          exact h1
        rw [canonicalPort_port_some u2 443 hpu2, hs2,
          if_pos (Or.inr ⟨hsch, rfl⟩)]
    · have hcu : canonicalPort u = some ep := by
        rw [canonicalPort_port_some u ep hpux, if_neg hcond]
      have hpu2 : u2.port = some ep := port_eport_some u2 ep (he2.trans hcu)
      rw [hcu, canonicalPort_port_some u2 ep hpu2, hs2, if_neg hcond]

/-- Normalizing the components re-parsed from the built URL rebuilds the
same URL (host form). -/
theorem normalizeParts_rebuild_host (sch h : String) (prt : Option Nat)
    (npth q : String) (hschi : lowerStr sch = sch) (hhi : lowerStr h = h)
    (hnpne : npth ≠ "") (hnpfix : normalizePath npth = npth)
    (hport : canonicalPort
      { scheme := if sch = "" then none else some sch, host := some h,
        eport := prt, path := npth, query := q } = prt) :
    normalizeParts
      { scheme := if sch = "" then none else some sch, host := some h,
        eport := prt, path := npth, query := q } =
    buildUrl sch h prt npth q := by
  have hch : canonicalHost
      { scheme := if sch = "" then none else some sch, host := some h,
        eport := prt, path := npth, query := q } = some h := by
    simp only [canonicalHost, Option.map_some']
    rw [hhi]
  simp only [normalizeParts, hch]
  rw [canonicalScheme_rebuild sch hschi (some h) prt npth q, hport,
    if_neg hnpne, hnpfix]

/-- Normalizing the components re-parsed from the built URL rebuilds the
same URL (host-less form). -/
theorem normalizeParts_rebuild_noHost (npth q : String) (hnpne : npth ≠ "")
    (hnpfix : normalizePath npth = npth) :
    normalizeParts
      { scheme := none, host := none, eport := none, path := npth,
        query := q } =
    npth ++ (if q = "" then "" else "?" ++ q) := by
  have hch : canonicalHost
      { scheme := none, host := none, eport := none, path := npth,
        query := q } = (none : Option String) := rfl
  simp only [normalizeParts, hch]
  rw [if_neg hnpne, hnpfix]

/-- C8 (amended): `normalize_url` is idempotent on every URL that parses to
components with a host whose normalized path is non-empty, and on every
host-less URL whose path starts with a single `'/'`; the unrestricted
idempotence claim fails (see `C8_counterexample`: a relative path gains a
leading slash that changes how `..` resolves). -/
theorem C8_normalize_idempotent (s : String) (u : UrlParts)
    (hp : parseURL s = some u)
    (hcase : (u.host ≠ none ∧
        normalizePath (if u.path = "" then "/" else u.path) ≠ "") ∨
      (u.host = none ∧ u.path.data.take 1 = ['/'] ∧
        u.path.data.take 2 ≠ ['/', '/'])) :
    (normalizeUrl s).bind normalizeUrl = normalizeUrl s := by
  obtain ⟨hscheme, hhostf, hpathf, hqf, habsf⟩ := parseURL_facts s u hp
  have hns : normalizeUrl s = some (normalizeParts u) := by
    simp only [normalizeUrl, hp, Option.map_some']
  rw [hns]
  show normalizeUrl (normalizeParts u) = some (normalizeParts u)
  rcases hcase with ⟨hhost, hnpne⟩ | ⟨hhost, htake1, htake2⟩
  · -- the URL has a host: the canonical netloc and path rebuild themselves
    rcases hhu : u.host with _ | h
    · exact absurd hhu hhost
    obtain ⟨hhne, hhdelims⟩ := hhostf h hhu
    have hshape : ∃ tl, (if u.path = "" then "/" else u.path).data =
        '/' :: tl ∧ ∀ c ∈ tl, c ≠ '?' ∧ c ≠ '#' := by
      rcases habsf (by simp [hhu]) with hpe | ⟨ptl, hptl⟩
      · exact ⟨[], by rw [if_pos hpe], fun c hc =>
          absurd hc (List.not_mem_nil c)⟩
      · have hpne : u.path ≠ "" := by
          intro he
          rw [he] at hptl
          exact List.noConfusion hptl
        exact ⟨ptl, by rw [if_neg hpne]; exact hptl,
          fun c hc => hpathf c (by rw [hptl]; exact List.mem_cons_of_mem _ hc)⟩
    obtain ⟨tl, htl_eq, htl_chars⟩ := hshape
    have hif : (if u.path = "" then "/" else u.path) = (⟨'/' :: tl⟩ : String) :=
      congrArg String.mk htl_eq
    rw [hif] at hnpne
    obtain ⟨⟨ptl2, hnp_shape⟩, hnp_chars, hnp_fix, _⟩ :=
      normalizePath_abs_facts tl (Or.inr hnpne)
    have hnp_qchars : ∀ c ∈ (normalizePath ⟨'/' :: tl⟩).data,
        c ≠ '?' ∧ c ≠ '#' := by
      intro c hc
      rcases hnp_chars c hc with hcs | hcm
      · subst hcs
        exact ⟨by decide, by decide⟩
      · exact htl_chars c hcm
    have hlh_ne : (lowerStr h).data ≠ [] := by
      intro he
      exact hhne (List.map_eq_nil_iff.mp he)
    have hscValid : canonicalScheme u = "" ∨
        ((∃ c0 pre, (canonicalScheme u).data = c0 :: pre ∧
          c0.isAlpha = true) ∧
          (canonicalScheme u).data.all isSchemeChar = true) := by
      rcases hsu : u.scheme with _ | sc
      · left
        have hce : canonicalScheme u = lowerStr "" := by
          simp only [canonicalScheme, hsu, Option.getD_none]
        rw [hce]
        exact lowerStr_empty
      · right
        have hcse : canonicalScheme u = lowerStr sc := by
          simp only [canonicalScheme, hsu, Option.getD_some]
        rw [hcse]
        exact lowerStr_scheme_valid sc (hscheme sc hsu).1 (hscheme sc hsu).2
    have hparse2 := parseURL_build_host (canonicalScheme u) (lowerStr h)
      (canonicalPort u) (normalizePath ⟨'/' :: tl⟩) u.query hscValid hlh_ne
      (lowerStr_host_delims h hhdelims) ⟨ptl2, hnp_shape⟩ hnp_qchars hqf
    have hNP : normalizeParts u =
        buildUrl (canonicalScheme u) (lowerStr h) (canonicalPort u)
          (normalizePath ⟨'/' :: tl⟩) u.query := by
      have hch : canonicalHost u = some (lowerStr h) := by
        simp only [canonicalHost, hhu, Option.map_some']
      simp only [normalizeParts, hch, hif]
    have hs2 := canonicalScheme_rebuild (canonicalScheme u)
      (lowerStr_idem (u.scheme.getD "")) (some (lowerStr h)) (canonicalPort u)
      (normalizePath ⟨'/' :: tl⟩) u.query
    have hport := canonicalPort_rebuild u
      { scheme := if canonicalScheme u = "" then none
          else some (canonicalScheme u),
        host := some (lowerStr h), eport := canonicalPort u,
        path := normalizePath ⟨'/' :: tl⟩, query := u.query } hs2 rfl
    have hparts2 := normalizeParts_rebuild_host (canonicalScheme u)
      (lowerStr h) (canonicalPort u) (normalizePath ⟨'/' :: tl⟩) u.query
      (lowerStr_idem (u.scheme.getD "")) (lowerStr_idem h) hnpne hnp_fix hport
    rw [← hNP] at hparse2
    simp only [normalizeUrl, hparse2, Option.map_some']
    rw [hparts2, ← hNP]
  · -- host-less: the normalized path re-parses to itself
    have hshape : ∃ tl, u.path.data = '/' :: tl := by
      rcases hd : u.path.data with _ | ⟨c, rest⟩
      · rw [hd] at htake1
        exact absurd htake1 (by simp)
      · rw [hd] at htake1
        have h1 : ([c] : List Char) = ['/'] := htake1
        have hc : c = '/' := by injection h1
        exact ⟨rest, by rw [hc]⟩
    obtain ⟨tl, htl_eq⟩ := hshape
    have hpne : u.path ≠ "" := by
      intro he
      rw [he] at htl_eq
      exact List.noConfusion htl_eq
    have hif : (if u.path = "" then "/" else u.path) =
        (⟨'/' :: tl⟩ : String) := by
      rw [if_neg hpne]
      exact congrArg String.mk htl_eq
    have hchars : ∀ c ∈ tl, c ≠ '?' ∧ c ≠ '#' := fun c hc =>
      hpathf c (by rw [htl_eq]; exact List.mem_cons_of_mem _ hc)
    have htake2' : ('/' :: tl).take 2 ≠ ['/', '/'] := by
      rw [← htl_eq]
      exact htake2
    have hpre1 : normpathPrefix ('/' :: tl) = ['/'] :=
      normpathPrefix_single tl htake2'
    obtain ⟨⟨ptl2, hnp_shape⟩, hnp_chars, hnp_fix, hnp_take2⟩ :=
      normalizePath_abs_facts tl (Or.inl hpre1)
    have hnp_qchars : ∀ c ∈ (normalizePath ⟨'/' :: tl⟩).data,
        c ≠ '?' ∧ c ≠ '#' := by
      intro c hc
      rcases hnp_chars c hc with hcs | hcm
      · subst hcs
        exact ⟨by decide, by decide⟩
      · exact hchars c hcm
    have hparse2 := parseURL_build_noHost (normalizePath ⟨'/' :: tl⟩) u.query
      ⟨ptl2, hnp_shape⟩ (hnp_take2 hpre1) hnp_qchars hqf
    have hNP : normalizeParts u = normalizePath ⟨'/' :: tl⟩ ++
        (if u.query = "" then "" else "?" ++ u.query) := by
      have hch : canonicalHost u = none := by
        simp only [canonicalHost, hhost, Option.map_none']
      simp only [normalizeParts, hch, hif]
    have hnpne2 : normalizePath ⟨'/' :: tl⟩ ≠ "" := by
      intro he
      rw [he] at hnp_shape
      exact List.noConfusion hnp_shape
    have hparts2 := normalizeParts_rebuild_noHost (normalizePath ⟨'/' :: tl⟩)
      u.query hnpne2 hnp_fix
    rw [← hNP] at hparse2
    simp only [normalizeUrl, hparse2, Option.map_some']
    rw [hparts2, ← hNP]

/-- Witness for C8's amended statement: `http://a/b` parses with a host and
a non-degenerate path, and normalization is idempotent on it. -/
theorem C8_witness :
    (parseURL "http://a/b" = some
      { scheme := some "http", host := some "a", eport := none,
        path := "/b", query := "" }) ∧
    (normalizeUrl "http://a/b").bind normalizeUrl =
      normalizeUrl "http://a/b" :=
  ⟨by decide,
    C8_normalize_idempotent "http://a/b"
      { scheme := some "http", host := some "a", eport := none, path := "/b",
        query := "" } (by decide) (Or.inl ⟨by decide, by decide⟩)⟩

end QCrawl
